import Mathlib

/-!
Verification development for `extractorjson.py`, an OWL/RDF ontology
symbol-table extractor.  The Python source works over an `rdflib.Graph`;
here the graph is embedded shallowly as a finite list of triples over a
three-variant node type (named resource / anonymous node / literal),
exactly the node taxonomy of the data model.  Recursive walks of the
Python code (the class-expression summarizer and the manual RDF-list
walk) are embedded with an explicit fuel parameter returning `Option`:
`none` models non-termination (fuel exhaustion), `some` a completed run.
-/

set_option maxHeartbeats 1000000

/-- RDF graph node: a named resource (IRI), an anonymous (blank) node
identified by a parse-scoped id, or a literal rendered by its string
form.  These are the three rdflib node kinds (`URIRef`, `BNode`,
`Literal`) that occur in a parsed document. -/
inductive Node where
  | uri : String → Node
  | bnode : String → Node
  | lit : String → Node
deriving DecidableEq, Repr

/-- String form of a node, as Python `str(node)`: the IRI of a named
resource, the internal id of a blank node, the lexical form of a
literal. -/
def Node.str : Node → String
  | .uri s => s
  | .bnode s => s
  | .lit s => s

/-- Whether a node is a named resource (`isinstance(node, URIRef)`). -/
def Node.isUri : Node → Bool
  | .uri _ => true
  | _ => false

/-- A triple (subject, predicate, object). -/
abbrev Triple := Node × Node × Node

/-- A parsed graph: a finite sequence of triples.  rdflib stores a set;
the list order models one fixed iteration order of that set. -/
abbrev Graph := List Triple

/-- Triple membership test, `(s, p, o) in g`. -/
def gMem (g : Graph) (s p o : Node) : Bool :=
  g.any (fun t => decide (t = (s, p, o)))

/-- All objects of triples with the given subject and predicate,
`g.objects(s, p)`, in graph order. -/
def Graph.objects (g : Graph) (s p : Node) : List Node :=
  (g.filter (fun t => decide (t.1 = s) && decide (t.2.1 = p))).map (fun t => t.2.2)

/-- One object of a triple with the given subject and predicate if any,
`g.value(s, p)`: rdflib returns an arbitrary matching object, modeled as
the first in graph order. -/
def Graph.value (g : Graph) (s p : Node) : Option Node :=
  (Graph.objects g s p).head?

/-- All (predicate, object) pairs on a subject, `g.predicate_objects(s)`. -/
def Graph.predicateObjects (g : Graph) (s : Node) : List (Node × Node) :=
  (g.filter (fun t => decide (t.1 = s))).map (fun t => (t.2.1, t.2.2))

/-- All subjects of triples with the given predicate and object,
`g.subjects(p, o)`, in graph order (possibly with repeats). -/
def Graph.subjects (g : Graph) (p o : Node) : List Node :=
  (g.filter (fun t => decide (t.2.1 = p) && decide (t.2.2 = o))).map (fun t => t.1)

/-- All subjects of triples with the given predicate, `g.subjects(p, None)`. -/
def Graph.subjectsP (g : Graph) (p : Node) : List Node :=
  (g.filter (fun t => decide (t.2.1 = p))).map (fun t => t.1)

/-- All subjects of any triple, `g.subjects()`. -/
def Graph.subjectsAll (g : Graph) : List Node :=
  g.map (fun t => t.1)

/-- Whether the subject has any triple with the given predicate,
`(s, p, None) in g`. -/
def Graph.hasSP (g : Graph) (s p : Node) : Bool :=
  g.any (fun t => decide (t.1 = s) && decide (t.2.1 = p))

/-! Vocabulary constants: the IRIs of the RDF/RDFS/OWL/SKOS terms the
source uses, written out in full. -/

def rdfType : Node := .uri "http://www.w3.org/1999/02/22-rdf-syntax-ns#type"

def rdfFirst : Node := .uri "http://www.w3.org/1999/02/22-rdf-syntax-ns#first"

def rdfRest : Node := .uri "http://www.w3.org/1999/02/22-rdf-syntax-ns#rest"

def rdfNil : Node := .uri "http://www.w3.org/1999/02/22-rdf-syntax-ns#nil"

def rdfsSubClassOf : Node := .uri "http://www.w3.org/2000/01/rdf-schema#subClassOf"

def rdfsDomain : Node := .uri "http://www.w3.org/2000/01/rdf-schema#domain"

def rdfsRange : Node := .uri "http://www.w3.org/2000/01/rdf-schema#range"

def rdfsSubPropertyOf : Node := .uri "http://www.w3.org/2000/01/rdf-schema#subPropertyOf"

def rdfsLabel : Node := .uri "http://www.w3.org/2000/01/rdf-schema#label"

def rdfsComment : Node := .uri "http://www.w3.org/2000/01/rdf-schema#comment"

def owlClass : Node := .uri "http://www.w3.org/2002/07/owl#Class"

def owlRestriction : Node := .uri "http://www.w3.org/2002/07/owl#Restriction"

def owlOnProperty : Node := .uri "http://www.w3.org/2002/07/owl#onProperty"

def owlSomeValuesFrom : Node := .uri "http://www.w3.org/2002/07/owl#someValuesFrom"

def owlAllValuesFrom : Node := .uri "http://www.w3.org/2002/07/owl#allValuesFrom"

def owlHasValue : Node := .uri "http://www.w3.org/2002/07/owl#hasValue"

def owlMinQualifiedCardinality : Node := .uri "http://www.w3.org/2002/07/owl#minQualifiedCardinality"

def owlMaxQualifiedCardinality : Node := .uri "http://www.w3.org/2002/07/owl#maxQualifiedCardinality"

def owlQualifiedCardinality : Node := .uri "http://www.w3.org/2002/07/owl#qualifiedCardinality"

def owlMinCardinality : Node := .uri "http://www.w3.org/2002/07/owl#minCardinality"

def owlMaxCardinality : Node := .uri "http://www.w3.org/2002/07/owl#maxCardinality"

def owlCardinality : Node := .uri "http://www.w3.org/2002/07/owl#cardinality"

def owlIntersectionOf : Node := .uri "http://www.w3.org/2002/07/owl#intersectionOf"

def owlUnionOf : Node := .uri "http://www.w3.org/2002/07/owl#unionOf"

def owlComplementOf : Node := .uri "http://www.w3.org/2002/07/owl#complementOf"

def owlOneOf : Node := .uri "http://www.w3.org/2002/07/owl#oneOf"

def owlEquivalentClass : Node := .uri "http://www.w3.org/2002/07/owl#equivalentClass"

def owlInverseOf : Node := .uri "http://www.w3.org/2002/07/owl#inverseOf"

def owlObjectProperty : Node := .uri "http://www.w3.org/2002/07/owl#ObjectProperty"

def owlDatatypeProperty : Node := .uri "http://www.w3.org/2002/07/owl#DatatypeProperty"

def owlAnnotationProperty : Node := .uri "http://www.w3.org/2002/07/owl#AnnotationProperty"

def owlFunctionalProperty : Node := .uri "http://www.w3.org/2002/07/owl#FunctionalProperty"

def owlInverseFunctionalProperty : Node := .uri "http://www.w3.org/2002/07/owl#InverseFunctionalProperty"

def owlTransitiveProperty : Node := .uri "http://www.w3.org/2002/07/owl#TransitiveProperty"

def owlSymmetricProperty : Node := .uri "http://www.w3.org/2002/07/owl#SymmetricProperty"

def owlAsymmetricProperty : Node := .uri "http://www.w3.org/2002/07/owl#AsymmetricProperty"

def owlReflexiveProperty : Node := .uri "http://www.w3.org/2002/07/owl#ReflexiveProperty"

def owlIrreflexiveProperty : Node := .uri "http://www.w3.org/2002/07/owl#IrreflexiveProperty"

def skosPrefLabel : Node := .uri "http://www.w3.org/2004/02/skos/core#prefLabel"

def skosAltLabel : Node := .uri "http://www.w3.org/2004/02/skos/core#altLabel"

/-- Python `fq(node)`: `str(node)` for a node, `None` for `None`. -/
def fq (o : Option Node) : Option String :=
  o.map Node.str

/-- Manual fallback walk of `rdf_list_to_py`: repeatedly fetch the
`rdf:first` value and the `rdf:rest` pointer from the current link,
appending each `first` value, stopping at the nil terminator, when no
`first` value is found, or when the `rest` pointer is missing.  `none`
means the fuel ran out, modeling the unguarded Python loop running
beyond the given bound (e.g. on a cyclic chain). -/
def rdf_list_walk (g : Graph) : Nat → Node → Option (List Node)
  | 0, _ => none
  | fuel + 1, cur =>
    if cur = rdfNil then some []
    else
      match Graph.value g cur rdfFirst with
      | none => some []
      | some first =>
        match Graph.value g cur rdfRest with
        | none => some [first]
        | some rest => (rdf_list_walk g fuel rest).map (fun items => first :: items)

/-- The List Materializer `rdf_list_to_py`.  The Python function first
tries rdflib's `Collection` helper (an external collaborator) and falls
back to the manual walk when that helper throws; on every list the
fallback accepts, both produce the elements in chain order, so the
materializer is embedded by the manual walk. -/
def rdf_list_to_py (g : Graph) (fuel : Nat) (node : Node) : Option (List Node) :=
  rdf_list_walk g fuel node

/-- Expression Record: output of `summarize_expression`, one JSON-style
dict per node.  `rawE` is a raw string value as stored for a
non-node restriction filler (Python stores `fq(val)` there); in every
other position the record is one of the tagged variants. -/
inductive Expr where
  | named : String → Expr
  | litE : String → Expr
  | unknownE : Option String → Expr
  | restriction : Option String → List (String × Expr) → Expr
  | rawE : String → Expr
  | interE : List Expr → Expr
  | unionE : List Expr → Expr
  | complE : Expr → Expr
  | oneOfE : List Expr → Expr
  | bnodeE : List (String × List String) → Expr

/-- The nine recognized restriction filler predicates with their output
keys, in the fixed order of the source's loop. -/
def fillerPairs : List (Node × String) :=
  [(owlSomeValuesFrom, "someValuesFrom"),
   (owlAllValuesFrom, "allValuesFrom"),
   (owlHasValue, "hasValue"),
   (owlMinQualifiedCardinality, "minQualifiedCardinality"),
   (owlMaxQualifiedCardinality, "maxQualifiedCardinality"),
   (owlQualifiedCardinality, "qualifiedCardinality"),
   (owlMinCardinality, "minCardinality"),
   (owlMaxCardinality, "maxCardinality"),
   (owlCardinality, "cardinality")]

/-- Restriction test of the source: the node is declared
`owl:Restriction` or carries an `owl:onProperty` triple. -/
def isRestrictionShaped (g : Graph) (n : Node) : Bool :=
  gMem g n rdfType owlRestriction || (Graph.value g n owlOnProperty).isSome

/-- Filler assembly of the restriction branch over a remaining sublist
of the nine pairs: for each predicate with a value, recurse into the
summarizer (passed as `summ`) when the value is a node, store the raw
string form when it is a literal; absent predicates contribute
nothing. -/
def buildFillersAux (g : Graph) (summ : Node → Option Expr) (node : Node) :
    List (Node × String) → List (String × Expr) → Option (List (String × Expr))
  | [], acc => some acc
  | pk :: rest, acc =>
    match Graph.value g node pk.1 with
    | none => buildFillersAux g summ node rest acc
    | some val =>
      match val with
      | .lit s => buildFillersAux g summ node rest (acc ++ [(pk.2, Expr.rawE s)])
      | v =>
        match summ v with
        | none => none
        | some e => buildFillersAux g summ node rest (acc ++ [(pk.2, e)])

/-- Filler assembly over all nine recognized filler predicates. -/
def buildFillers (g : Graph) (summ : Node → Option Expr) (node : Node) :
    Option (List (String × Expr)) :=
  buildFillersAux g summ node fillerPairs []

/-- Append one value under a key in an insertion-ordered multimap,
Python `d.setdefault(k, []).append(v)`. -/
def annAppendOne : List (String × List String) → String → String → List (String × List String)
  | [], k, v => [(k, [v])]
  | (k', vs) :: rest, k, v =>
    if k' = k then (k', vs ++ [v]) :: rest else (k', vs) :: annAppendOne rest k v

/-- The (predicate, object) string-form pairs of the `BNode` fallback,
grouped by predicate in discovery order. -/
def bnodeProps (g : Graph) (node : Node) : List (String × List String) :=
  (Graph.predicateObjects g node).foldl
    (fun m po => annAppendOne m (Node.str po.1) (Node.str po.2)) []

/-- One dispatch level of the Expression Summarizer, with the recursive
summarizer and the list materializer passed in: a named resource gives
`Named`, a literal gives `Literal`, then for an anonymous node the
structural checks run in source order — restriction shape, then
`intersectionOf`, `unionOf`, `complementOf`, `oneOf` links, and finally
the `BNode` fallback capturing the immediate predicate/object pairs.
The source's guard returning `Unknown` for a node that is none of
`URIRef`/`Literal`/`BNode` is unreachable here because those three
variants exhaust the node type of the data model. -/
def summarizeStep (g : Graph) (summ : Node → Option Expr)
    (walk : Node → Option (List Node)) (node : Node) : Option Expr :=
  match node with
  | .uri s => some (.named s)
  | .lit s => some (.litE s)
  | .bnode _ =>
    if isRestrictionShaped g node then
      (buildFillers g summ node).map
        (fun fs => .restriction (fq (Graph.value g node owlOnProperty)) fs)
    else
      match Graph.value g node owlIntersectionOf with
      | some inter =>
        match walk inter with
        | none => none
        | some items =>
          match items.mapM summ with
          | none => none
          | some ops => some (.interE ops)
      | none =>
        match Graph.value g node owlUnionOf with
        | some un =>
          match walk un with
          | none => none
          | some items =>
            match items.mapM summ with
            | none => none
            | some ops => some (.unionE ops)
        | none =>
          match Graph.value g node owlComplementOf with
          | some comp => (summ comp).map (fun e => .complE e)
          | none =>
            match Graph.value g node owlOneOf with
            | some oo =>
              match walk oo with
              | none => none
              | some items =>
                match items.mapM summ with
                | none => none
                | some ops => some (.oneOfE ops)
            | none => some (.bnodeE (bnodeProps g node))

/-- The Expression Summarizer `summarize_expression`, with fuel bounding
the recursion depth; `none` models an unfinished (diverging) run. -/
def summarize_expression (g : Graph) : Nat → Node → Option Expr
  | 0, _ => none
  | fuel + 1, node =>
    summarizeStep g (fun v => summarize_expression g fuel v)
      (fun l => rdf_list_to_py g fuel l) node

/-- JSON value, the shape of the serialized output records. -/
inductive J where
  | jnull : J
  | jstr : String → J
  | jarr : List J → J
  | jobj : List (String × J) → J

/-- JSON rendering of an optional string: `None` serializes as null. -/
def jOfOptStr : Option String → J
  | none => J.jnull
  | some s => J.jstr s

mutual

/-- JSON rendering of an Expression Record, following the dict layouts
built by `summarize_expression` (and serialized by `json.dump`). -/
def exprToJson : Expr → J
  | .named i => J.jobj [("exprType", J.jstr "Named"), ("iri", J.jstr i)]
  | .litE v => J.jobj [("exprType", J.jstr "Literal"), ("value", J.jstr v)]
  | .unknownE v => J.jobj [("exprType", J.jstr "Unknown"), ("value", jOfOptStr v)]
  | .rawE s => J.jstr s
  | .restriction op fs =>
    J.jobj (("exprType", J.jstr "Restriction") :: ("onProperty", jOfOptStr op) ::
      fieldsToJson fs)
  | .interE ops =>
    J.jobj [("exprType", J.jstr "Intersection"), ("operands", J.jarr (listToJson ops))]
  | .unionE ops =>
    J.jobj [("exprType", J.jstr "Union"), ("operands", J.jarr (listToJson ops))]
  | .complE e => J.jobj [("exprType", J.jstr "Complement"), ("operand", exprToJson e)]
  | .oneOfE ops =>
    J.jobj [("exprType", J.jstr "OneOf"), ("members", J.jarr (listToJson ops))]
  | .bnodeE props =>
    J.jobj [("exprType", J.jstr "BNode"),
      ("props", J.jobj (props.map (fun kv => (kv.1, J.jarr (kv.2.map J.jstr)))))]

/-- JSON rendering of the filler fields of a restriction record. -/
def fieldsToJson : List (String × Expr) → List (String × J)
  | [] => []
  | (k, e) :: rest => (k, exprToJson e) :: fieldsToJson rest

/-- JSON rendering of a list of Expression Records. -/
def listToJson : List Expr → List J
  | [] => []
  | e :: rest => exprToJson e :: listToJson rest

end

/-- Key/value fields of a JSON object, empty for non-objects. -/
def jsonFields : J → List (String × J)
  | .jobj l => l
  | _ => []

/-- Literal string forms of the objects under any of the given
predicates, `get_literals_for_pred`: non-literal objects are skipped. -/
def get_literals_for_pred (g : Graph) (subject : Node) (preds : List Node) : List String :=
  preds.foldr (fun p acc =>
    ((Graph.objects g subject p).filterMap (fun o =>
      match o with
      | .lit v => some v
      | _ => none)) ++ acc) []

/-- The fixed exclusion set of `collect_annotations`: predicates whose
triples are skipped because the gatherer stores them structurally. -/
def structuralExclusions : List Node :=
  [rdfType, rdfsSubClassOf, owlEquivalentClass, rdfsDomain, rdfsRange, rdfsSubPropertyOf]

/-- The Annotation Collector `collect_annotations`: every (predicate,
object) pair on the subject whose predicate is outside the exclusion
set, grouped by predicate string in discovery order. -/
def collect_annotations (g : Graph) (subject : Node) : List (String × List String) :=
  (Graph.predicateObjects g subject).foldl
    (fun ann po =>
      if po.1 ∈ structuralExclusions then ann
      else annAppendOne ann (Node.str po.1) (Node.str po.2)) []

/-- The Property Characteristics Extractor: seven membership checks in
the fixed source order, each appending its tag when the typing triple is
present. -/
def extract_property_characteristics (g : Graph) (prop : Node) : List String :=
  let chars : List String := []
  let chars := if gMem g prop rdfType owlFunctionalProperty then chars ++ ["Functional"] else chars
  let chars := if gMem g prop rdfType owlInverseFunctionalProperty then chars ++ ["InverseFunctional"] else chars
  let chars := if gMem g prop rdfType owlTransitiveProperty then chars ++ ["Transitive"] else chars
  let chars := if gMem g prop rdfType owlSymmetricProperty then chars ++ ["Symmetric"] else chars
  let chars := if gMem g prop rdfType owlAsymmetricProperty then chars ++ ["Asymmetric"] else chars
  let chars := if gMem g prop rdfType owlReflexiveProperty then chars ++ ["Reflexive"] else chars
  let chars := if gMem g prop rdfType owlIrreflexiveProperty then chars ++ ["Irreflexive"] else chars
  chars

/-- Term Record: the aggregate entry built per discovered named
resource, with the field set of the source's `entry` dict. -/
structure Entry where
  iri : String
  types : List String
  labels : List String
  altLabels : List String
  comments : List String
  annotations : List (String × List String)
  domains : List String
  ranges : List String
  subClassOf : List Expr
  equivalentClass : List Expr
  propertyCharacteristics : List String
  subPropertyOf : List String
  inverseOf : List String
  individualTypes : List String

/-- Fresh Term Record for an IRI, all aggregate fields empty. -/
def defaultEntry (iri : String) : Entry :=
  { iri := iri, types := [], labels := [], altLabels := [], comments := [],
    annotations := [], domains := [], ranges := [], subClassOf := [],
    equivalentClass := [], propertyCharacteristics := [], subPropertyOf := [],
    inverseOf := [], individualTypes := [] }

/-- Lookup in the insertion-ordered entry dictionary. -/
def dictGet : List (String × Entry) → String → Option Entry
  | [], _ => none
  | (k', e) :: rest, k => if k' = k then some e else dictGet rest k

/-- Store under a key in the insertion-ordered entry dictionary:
replace the existing binding in place, else append at the end. -/
def dictSet : List (String × Entry) → String → Entry → List (String × Entry)
  | [], k, e => [(k, e)]
  | (k', e') :: rest, k, e =>
    if k' = k then (k', e) :: rest else (k', e') :: dictSet rest k e

/-- Append each item not already present, in order (`if item not in
lst: lst.append(item)` over a list of items). -/
def addUnique (lst : List String) (items : List String) : List String :=
  items.foldl (fun acc x => if x ∈ acc then acc else acc ++ [x]) lst

/-- Merge values under one key into the annotations dictionary:
`setdefault(k, [])` then unique-append each value. -/
def annMergeKey (m : List (String × List String)) (k : String) (vs : List String) :
    List (String × List String) :=
  let m' := if m.any (fun kv => decide (kv.1 = k)) then m else m ++ [(k, [])]
  m'.map (fun kv => if kv.1 = k then (kv.1, addUnique kv.2 vs) else kv)

/-- The three property role names. -/
def propertyCats : List String := ["ObjectProperty", "DatatypeProperty", "AnnotationProperty"]

/-- Deduplicate keeping first occurrences; models iterating a Python
`set(...)` under the fixed traversal order of the graph list. -/
def dedupFirst (l : List Node) : List Node :=
  l.foldl (fun acc x => if x ∈ acc then acc else acc ++ [x]) []

/-- Whether a node already occurs in the discovery list
(`any(t[1] == subj for t in terms)`). -/
def hasNode (ts : List (String × Node)) (n : Node) : Bool :=
  ts.any (fun t => decide (t.2 = n))

/-- Discovery loop that appends `(cat, subj)` for each candidate
satisfying the static condition and not yet present in the list; the
membership test runs against the evolving list, as in the source's
loops that append to `terms` while iterating. -/
def accumNew (static : Node → Bool) (cat : String) (init : List (String × Node))
    (l : List Node) : List (String × Node) :=
  l.foldl (fun ts subj =>
    if static subj && !(hasNode ts subj) then ts ++ [(cat, subj)] else ts) init

/-- Named resources carrying an `rdf:type` triple to the given class,
each tagged with the role name (the `set(g.subjects(RDF.type, C))`
loops filtered to `URIRef`). -/
def typedTerms (g : Graph) (cat : String) (cls : Node) : List (String × Node) :=
  ((dedupFirst (Graph.subjects g rdfType cls)).filter Node.isUri).map (fun s => (cat, s))

/-- Discovery phase of `gather_terms`: explicitly typed classes, then
implicit classes by `subClassOf`/`equivalentClass` usage (skipping
already-listed nodes), then the three property categories, then
individuals — subjects of some `rdf:type` triple not otherwise
captured. -/
def discoverTerms (g : Graph) : List (String × Node) :=
  let t1 := typedTerms g "Class" owlClass
  let t1b := accumNew
    (fun subj => Node.isUri subj &&
      (Graph.hasSP g subj rdfsSubClassOf || Graph.hasSP g subj owlEquivalentClass))
    "Class" t1 (dedupFirst (Graph.subjectsAll g))
  let t4 := t1b ++ typedTerms g "ObjectProperty" owlObjectProperty
    ++ typedTerms g "DatatypeProperty" owlDatatypeProperty
    ++ typedTerms g "AnnotationProperty" owlAnnotationProperty
  accumNew (fun subj => Node.isUri subj && !(Graph.objects g subj rdfType).isEmpty)
    "Individual" t4 (dedupFirst (Graph.subjectsP g rdfType))

/-- Role-independent accumulation of the per-term block: role name,
labels, altLabels, comments, merged annotations, and — for the three
property roles — domains, ranges, subPropertyOf, inverseOf and the
freshly overwritten characteristics list. -/
def accumulateCommon (g : Graph) (cat : String) (node : Node) (e0 : Entry) : Entry :=
  let e1 := if cat ∈ e0.types then e0 else { e0 with types := e0.types ++ [cat] }
  let e2 := { e1 with labels := addUnique e1.labels (get_literals_for_pred g node [rdfsLabel, skosPrefLabel]) }
  let e3 := { e2 with altLabels := addUnique e2.altLabels (get_literals_for_pred g node [skosAltLabel]) }
  let e4 := { e3 with comments := addUnique e3.comments (get_literals_for_pred g node [rdfsComment]) }
  let e5 := { e4 with annotations :=
    (collect_annotations g node).foldl (fun m kv => annMergeKey m kv.1 kv.2) e4.annotations }
  if cat ∈ propertyCats then
    { e5 with
      domains := addUnique e5.domains ((Graph.objects g node rdfsDomain).map Node.str),
      ranges := addUnique e5.ranges ((Graph.objects g node rdfsRange).map Node.str),
      subPropertyOf := addUnique e5.subPropertyOf ((Graph.objects g node rdfsSubPropertyOf).map Node.str),
      inverseOf := addUnique e5.inverseOf ((Graph.objects g node owlInverseOf).map Node.str),
      propertyCharacteristics := extract_property_characteristics g node }
  else e5

/-- Assembly step of `gather_terms` for one discovered (category, node)
pair: fetch or create the record for the node's IRI, accumulate the
common and role-conditional fields, and store the record back. -/
def processTerm (g : Graph) (fuel : Nat) (se : List (String × Entry)) (cn : String × Node) :
    Option (List (String × Entry)) :=
  let cat := cn.1
  let node := cn.2
  let iri := Node.str node
  let e0 := (dictGet se iri).getD (defaultEntry iri)
  let e6 := accumulateCommon g cat node e0
  do
    let e7 ←
      if cat = "Class" then do
        let subs ← (Graph.objects g node rdfsSubClassOf).mapM (fun o => summarize_expression g fuel o)
        let eqs ← (Graph.objects g node owlEquivalentClass).mapM (fun o => summarize_expression g fuel o)
        pure { e6 with subClassOf := e6.subClassOf ++ subs,
                       equivalentClass := e6.equivalentClass ++ eqs }
      else pure e6
    let e8 :=
      if cat = "Individual" then
        { e7 with individualTypes := e7.individualTypes ++ (Graph.objects g node rdfType).map Node.str }
      else e7
    pure (dictSet se iri e8)

/-- The Term Gatherer `gather_terms`: discover terms, fold the assembly
step over them, and return the records in insertion order.  `none`
models a run whose expression summarization did not finish within the
fuel bound. -/
def gather_terms (g : Graph) (fuel : Nat) : Option (List Entry) := do
  let se ← (discoverTerms g).foldlM (fun se cn => processTerm g fuel se cn) []
  pure (se.map (fun kv => kv.2))

/-- The usage message of `main`. -/
def usageMessage : String :=
  "Usage: python3 extract_full_symbol_table.py /path/to/ontology.ttl [out.json]"

/-- Top-level JSON document written by `main`. -/
structure OutDoc where
  sourceFile : String
  termCount : Nat
  terms : List Entry

/-- The `main` entry point as a function of the argument vector and the
external parser: returns the exit code, the printed messages, and the
files written.  A parse failure propagates (the interpreter exits with
code 1) before any file is opened; a missing input argument prints the
usage message and exits with code 1.  The outer `none` models a run
whose term gathering did not finish within the fuel bound. -/
def mainRun (argv : List String) (parse : String → Except String Graph) (fuel : Nat) :
    Option (Nat × List String × List (String × OutDoc)) :=
  match argv with
  | _prog :: infile :: rest =>
    let outfile := rest.headD "symbol_table_full.json"
    match parse infile with
    | .error _ => some (1, ["Parsing: " ++ infile], [])
    | .ok g =>
      match gather_terms g fuel with
      | none => none
      | some terms =>
        some (0,
          ["Parsing: " ++ infile,
           "Graph parsed. Triples: " ++ toString g.length,
           "Wrote " ++ outfile ++ " with " ++ toString terms.length ++ " term entries."],
          [(outfile, { sourceFile := infile, termCount := terms.length, terms := terms })])
  | _ => some (1, [usageMessage], [])

/-! Claim-side definitions: predicates and reference shapes written
from the specification's wording, against which the embedded code is
checked. -/

/-- The seven capability classes with their tags, in the fixed check
order of the Property Characteristics Extractor. -/
def charPairs : List (Node × String) :=
  [(owlFunctionalProperty, "Functional"),
   (owlInverseFunctionalProperty, "InverseFunctional"),
   (owlTransitiveProperty, "Transitive"),
   (owlSymmetricProperty, "Symmetric"),
   (owlAsymmetricProperty, "Asymmetric"),
   (owlReflexiveProperty, "Reflexive"),
   (owlIrreflexiveProperty, "Irreflexive")]

/-- An acyclic well-formed RDF list: a `rdf:first`/`rdf:rest` chain
ending at the nil terminator whose `first` values are, in chain order,
the given elements. -/
inductive IsRdfList (g : Graph) : Node → List Node → Prop where
  | nil : IsRdfList g rdfNil []
  | cons {root x rest : Node} {xs : List Node} : root ≠ rdfNil →
      Graph.value g root rdfFirst = some x →
      Graph.value g root rdfRest = some rest →
      IsRdfList g rest xs → IsRdfList g root (x :: xs)

/-- A chain whose `rest` link is missing after its listed elements: the
last link holds a `first` value but no `rest` pointer. -/
inductive TruncRest (g : Graph) : Node → List Node → Prop where
  | last {root x : Node} : root ≠ rdfNil →
      Graph.value g root rdfFirst = some x →
      Graph.value g root rdfRest = none → TruncRest g root [x]
  | cons {root x rest : Node} {xs : List Node} : root ≠ rdfNil →
      Graph.value g root rdfFirst = some x →
      Graph.value g root rdfRest = some rest →
      TruncRest g rest xs → TruncRest g root (x :: xs)

/-- A chain whose link after the listed elements lacks a `first`
value. -/
inductive TruncFirst (g : Graph) : Node → List Node → Prop where
  | here {root : Node} : root ≠ rdfNil →
      Graph.value g root rdfFirst = none → TruncFirst g root []
  | cons {root x rest : Node} {xs : List Node} : root ≠ rdfNil →
      Graph.value g root rdfFirst = some x →
      Graph.value g root rdfRest = some rest →
      TruncFirst g rest xs → TruncFirst g root (x :: xs)

/-- One recursion edge of the Expression Summarizer or the list walk:
from a node to a node-valued restriction filler, to the root of a
boolean-combinator or enumeration list, to a complement operand, or
along the `rdf:first`/`rdf:rest` links of a chain.  A graph is acyclic
through these links exactly when some measure strictly decreases along
every such edge. -/
inductive Step (g : Graph) : Node → Node → Prop where
  | filler {a b p : Node} {k : String} : (p, k) ∈ fillerPairs →
      Graph.value g a p = some b → (∀ s, b ≠ Node.lit s) → Step g a b
  | inter {a b : Node} : Graph.value g a owlIntersectionOf = some b → Step g a b
  | unionS {a b : Node} : Graph.value g a owlUnionOf = some b → Step g a b
  | compl {a b : Node} : Graph.value g a owlComplementOf = some b → Step g a b
  | oneOfS {a b : Node} : Graph.value g a owlOneOf = some b → Step g a b
  | restS {a b : Node} : Graph.value g a rdfRest = some b → Step g a b
  | firstS {a b : Node} : Graph.value g a rdfFirst = some b → Step g a b

/-- The discovery criteria of the Term Gatherer, as the claim lists
them: explicit typing as one of the four declared categories, subject
position in a `subClassOf` or `equivalentClass` triple, or subject of
some `rdf:type` triple. -/
def Discovered (g : Graph) (iri : String) : Prop :=
  (Node.uri iri, rdfType, owlClass) ∈ g ∨
  (Node.uri iri, rdfType, owlObjectProperty) ∈ g ∨
  (Node.uri iri, rdfType, owlDatatypeProperty) ∈ g ∨
  (Node.uri iri, rdfType, owlAnnotationProperty) ∈ g ∨
  (∃ o, (Node.uri iri, rdfsSubClassOf, o) ∈ g) ∨
  (∃ o, (Node.uri iri, owlEquivalentClass, o) ∈ g) ∨
  (∃ t, (Node.uri iri, rdfType, t) ∈ g)

/-- The filler keys whose predicate has a value on the node, in the
fixed order of the nine recognized filler predicates. -/
def presentFillerKeys (g : Graph) (n : Node) : List String :=
  (fillerPairs.filter (fun pk => (Graph.value g n pk.1).isSome)).map Prod.snd

/-- The filler fields of a restriction record (empty for any other
record). -/
def restrictionFillers : Expr → List (String × Expr)
  | .restriction _ fs => fs
  | _ => []

/-! Concrete graphs used as witnesses and counterexamples. -/

/-- A property node. -/
def pEx : Node := .uri "http://ex/p"

/-- A property typed transitive before functional: discovery order is
the reverse of the fixed check order. -/
def gFT : Graph :=
  [(pEx, rdfType, owlTransitiveProperty), (pEx, rdfType, owlFunctionalProperty)]

/-- The same two triples as `gFT` in the opposite order. -/
def gFT' : Graph :=
  [(pEx, rdfType, owlFunctionalProperty), (pEx, rdfType, owlTransitiveProperty)]

/-- Two chain links. -/
def lnk1 : Node := .bnode "l1"

/-- Second chain link. -/
def lnk2 : Node := .bnode "l2"

/-- A well-formed two-element RDF list. -/
def gList : Graph :=
  [(lnk1, rdfFirst, Node.uri "http://ex/a"), (lnk1, rdfRest, lnk2),
   (lnk2, rdfFirst, Node.uri "http://ex/b"), (lnk2, rdfRest, rdfNil)]

/-- An anonymous restriction node. -/
def rNode : Node := .bnode "r"

/-- A declared restriction carrying two filler predicates at once. -/
def gTwoFillers : Graph :=
  [(rNode, rdfType, owlRestriction),
   (rNode, owlOnProperty, Node.uri "http://ex/P"),
   (rNode, owlSomeValuesFrom, Node.uri "http://ex/C"),
   (rNode, owlMinCardinality, Node.lit "1")]

/-- A declared restriction with no `owl:onProperty` triple and no
fillers. -/
def gDecl : Graph := [(rNode, rdfType, owlRestriction)]

/-- A declared restriction that also carries an `owl:intersectionOf`
link, exercising the dispatch priority. -/
def gPriority : Graph :=
  [(rNode, rdfType, owlRestriction), (rNode, owlIntersectionOf, rdfNil)]

/-- A named class. -/
def aEx : Node := .uri "http://ex/A"

/-- A class carrying a label: the label is captured structurally and
also revisited by the Annotation Collector. -/
def gLabel : Graph :=
  [(aEx, rdfType, owlClass), (aEx, rdfsLabel, Node.lit "X")]

/-- A class with two distinct anonymous superclass restrictions of
identical structure. -/
def gDupSub : Graph :=
  [(aEx, rdfType, owlClass),
   (aEx, rdfsSubClassOf, Node.bnode "b1"),
   (aEx, rdfsSubClassOf, Node.bnode "b2"),
   (Node.bnode "b1", owlOnProperty, Node.uri "http://ex/P"),
   (Node.bnode "b1", owlSomeValuesFrom, Node.uri "http://ex/C"),
   (Node.bnode "b2", owlOnProperty, Node.uri "http://ex/P"),
   (Node.bnode "b2", owlSomeValuesFrom, Node.uri "http://ex/C")]

/-- The duplicated restriction summary produced for both anonymous
superclasses in `gDupSub`. -/
def dupRestr : Expr :=
  .restriction (some "http://ex/P") [("someValuesFrom", Expr.named "http://ex/C")]

/-- The Term Record the gatherer builds for the class of `gDupSub`. -/
def c4entry : Entry :=
  { iri := "http://ex/A", types := ["Class"], labels := [], altLabels := [],
    comments := [], annotations := [], domains := [], ranges := [],
    subClassOf := [dupRestr, dupRestr], equivalentClass := [],
    propertyCharacteristics := [], subPropertyOf := [], inverseOf := [],
    individualTypes := [] }

/-- The entry dictionary after processing the class of `gDupSub`. -/
def c4se : List (String × Entry) := [("http://ex/A", c4entry)]

/-- The Term Record the gatherer builds for the class of `gLabel`: the
label value appears both in `labels` and under the `rdfs:label` key of
`annotations`. -/
def c3entry : Entry :=
  { iri := "http://ex/A", types := ["Class"], labels := ["X"], altLabels := [],
    comments := [],
    annotations := [("http://www.w3.org/2000/01/rdf-schema#label", ["X"])],
    domains := [], ranges := [], subClassOf := [], equivalentClass := [],
    propertyCharacteristics := [], subPropertyOf := [], inverseOf := [],
    individualTypes := [] }

/-- Invariant of the Term Gatherer's assembly fold: record keys are
unique, every stored record's `iri` matches its key and its role list
is duplicate-free, every processed (category, node) pair is reflected
in its record's role list, and every key stems from some processed
pair. -/
def GatherInv (processed : List (String × Node)) (se : List (String × Entry)) : Prop :=
  (se.map Prod.fst).Nodup ∧
  (∀ kv ∈ se, (kv : String × Entry).2.iri = kv.1 ∧ kv.2.types.Nodup) ∧
  (∀ cn ∈ processed,
    ∃ e, dictGet se (Node.str (cn : String × Node).2) = some e ∧ cn.1 ∈ e.types) ∧
  (∀ kv ∈ se, ∃ cn ∈ processed, Node.str (cn : String × Node).2 = (kv : String × Entry).1)

/-! Basic lemmas about the graph-query primitives. -/

theorem mem_objects {g : Graph} {s p o : Node} :
    o ∈ Graph.objects g s p ↔ (s, p, o) ∈ g := by
  simp only [Graph.objects, List.mem_map, List.mem_filter, Bool.and_eq_true,
    decide_eq_true_eq]
  constructor
  · rintro ⟨⟨t1, t2, t3⟩, ⟨hmem, h1, h2⟩, h3⟩
    simp only at h1 h2 h3
    subst h1; subst h2; subst h3
    exact hmem
  · intro h
    exact ⟨(s, p, o), ⟨h, rfl, rfl⟩, rfl⟩

theorem value_mem {g : Graph} {s p o : Node} (h : Graph.value g s p = some o) :
    (s, p, o) ∈ g := by
  have : o ∈ Graph.objects g s p := by
    cases hh : Graph.objects g s p with
    | nil => simp [Graph.value, hh] at h
    | cons a l =>
      simp [Graph.value, hh] at h
      simp [hh, h]
  exact mem_objects.mp this

theorem gMem_iff {g : Graph} {s p o : Node} :
    gMem g s p o = true ↔ (s, p, o) ∈ g := by
  simp [gMem, List.any_eq_true]

theorem hasSP_iff {g : Graph} {s p : Node} :
    Graph.hasSP g s p = true ↔ ∃ o, (s, p, o) ∈ g := by
  simp only [Graph.hasSP, List.any_eq_true, Bool.and_eq_true, decide_eq_true_eq]
  constructor
  · rintro ⟨⟨t1, t2, t3⟩, hmem, h1, h2⟩
    simp only at h1 h2
    subst h1; subst h2
    exact ⟨t3, hmem⟩
  · rintro ⟨o, h⟩
    exact ⟨(s, p, o), h, rfl, rfl⟩

theorem mem_subjects {g : Graph} {s p o : Node} :
    s ∈ Graph.subjects g p o ↔ (s, p, o) ∈ g := by
  simp only [Graph.subjects, List.mem_map, List.mem_filter, Bool.and_eq_true,
    decide_eq_true_eq]
  constructor
  · rintro ⟨⟨t1, t2, t3⟩, ⟨hmem, h1, h2⟩, h3⟩
    simp only at h1 h2 h3
    subst h1; subst h2; subst h3
    exact hmem
  · intro h
    exact ⟨(s, p, o), ⟨h, rfl, rfl⟩, rfl⟩

theorem mem_subjectsP {g : Graph} {s p : Node} :
    s ∈ Graph.subjectsP g p ↔ ∃ o, (s, p, o) ∈ g := by
  simp only [Graph.subjectsP, List.mem_map, List.mem_filter, decide_eq_true_eq]
  constructor
  · rintro ⟨⟨t1, t2, t3⟩, ⟨hmem, h1⟩, h3⟩
    simp only at h1 h3
    subst h1; subst h3
    exact ⟨t3, hmem⟩
  · rintro ⟨o, h⟩
    exact ⟨(s, p, o), ⟨h, rfl⟩, rfl⟩

theorem mem_subjectsAll {g : Graph} {s : Node} :
    s ∈ Graph.subjectsAll g ↔ ∃ p o, (s, p, o) ∈ g := by
  simp only [Graph.subjectsAll, List.mem_map]
  constructor
  · rintro ⟨⟨t1, t2, t3⟩, hmem, h1⟩
    simp only at h1
    subst h1
    exact ⟨t2, t3, hmem⟩
  · rintro ⟨p, o, h⟩
    exact ⟨(s, p, o), h, rfl⟩

theorem objects_isEmpty_iff {g : Graph} {s p : Node} :
    (Graph.objects g s p).isEmpty = false ↔ ∃ o, (s, p, o) ∈ g := by
  rw [List.isEmpty_eq_false_iff_exists_mem]
  constructor
  · rintro ⟨o, h⟩
    exact ⟨o, mem_objects.mp h⟩
  · rintro ⟨o, h⟩
    exact ⟨o, mem_objects.mpr h⟩

theorem mem_dedupFirst_aux {l : List Node} {acc : List Node} {x : Node} :
    x ∈ l.foldl (fun acc x => if x ∈ acc then acc else acc ++ [x]) acc ↔
      x ∈ acc ∨ x ∈ l := by
  induction l generalizing acc with
  | nil => simp
  | cons a rest ih =>
    simp only [List.foldl_cons, List.mem_cons]
    by_cases h : a ∈ acc
    · rw [if_pos h, ih]
      constructor
      · rintro (hx | hx)
        · exact Or.inl hx
        · exact Or.inr (Or.inr hx)
      · rintro (hx | hx | hx)
        · exact Or.inl hx
        · exact Or.inl (hx ▸ h)
        · exact Or.inr hx
    · rw [if_neg h, ih]
      simp only [List.mem_append, List.mem_singleton]
      tauto

theorem mem_dedupFirst {l : List Node} {x : Node} :
    x ∈ dedupFirst l ↔ x ∈ l := by
  rw [dedupFirst, mem_dedupFirst_aux]
  simp

theorem gMem_congr {g g' : Graph} {s p o : Node} (h : ∀ t, t ∈ g ↔ t ∈ g') :
    gMem g s p o = gMem g' s p o := by
  by_cases hm : (s, p, o) ∈ g
  · rw [gMem_iff.mpr hm, gMem_iff.mpr ((h _).mp hm)]
  · have hm' : (s, p, o) ∉ g' := fun hc => hm ((h _).mpr hc)
    cases hb : gMem g s p o with
    | false =>
      cases hb' : gMem g' s p o with
      | false => rfl
      | true => exact absurd (gMem_iff.mp hb') hm'
    | true => exact absurd (gMem_iff.mp hb) hm

/-! Claim C6: the List Materializer's manual fallback. -/

/-- C6: for every acyclic well-formed `rdf:first`/`rdf:rest` list of
length N rooted at a node, the manual fallback returns exactly the N
element values in source order; for a chain whose `rest` link is
missing after k elements, or whose following link lacks a `first`
value, it returns exactly the first k elements as a valid sequence
(never an error), given fuel beyond the chain length. -/
theorem c6_list_materializer :
    (∀ g root elems, IsRdfList g root elems →
      ∀ fuel, elems.length < fuel → rdf_list_to_py g fuel root = some elems) ∧
    (∀ g root elems, TruncRest g root elems →
      ∀ fuel, elems.length ≤ fuel → rdf_list_to_py g fuel root = some elems) ∧
    (∀ g root elems, TruncFirst g root elems →
      ∀ fuel, elems.length < fuel → rdf_list_to_py g fuel root = some elems) := by
  refine ⟨?_, ?_, ?_⟩
  · intro g root elems h
    induction h with
    | nil =>
      intro fuel hf
      cases fuel with
      | zero => omega
      | succ f => simp [rdf_list_to_py, rdf_list_walk]
    | cons hne hfst hrst htail ih =>
      intro fuel hf
      cases fuel with
      | zero => simp at hf
      | succ f =>
        have hlen : _ ≤ f := Nat.lt_succ_iff.mp hf
        simp only [List.length_cons] at hlen
        have hih := ih f (Nat.lt_of_lt_of_le (Nat.lt_succ_self _) hlen)
        simp only [rdf_list_to_py] at hih
        simp [rdf_list_to_py, rdf_list_walk, hne, hfst, hrst, hih]
  · intro g root elems h
    induction h with
    | last hne hfst hrst =>
      intro fuel hf
      cases fuel with
      | zero => simp at hf
      | succ f => simp [rdf_list_to_py, rdf_list_walk, hne, hfst, hrst]
    | cons hne hfst hrst htail ih =>
      intro fuel hf
      cases fuel with
      | zero => simp at hf
      | succ f =>
        have hlen : _ ≤ f := Nat.succ_le_succ_iff.mp (by simpa using hf)
        have hih := ih f hlen
        simp only [rdf_list_to_py] at hih
        simp [rdf_list_to_py, rdf_list_walk, hne, hfst, hrst, hih]
  · intro g root elems h
    induction h with
    | here hne hfst =>
      intro fuel hf
      cases fuel with
      | zero => omega
      | succ f => simp [rdf_list_to_py, rdf_list_walk, hne, hfst]
    | cons hne hfst hrst htail ih =>
      intro fuel hf
      cases fuel with
      | zero => simp at hf
      | succ f =>
        have hlen := Nat.lt_of_succ_lt_succ (by simpa using hf)
        have hih := ih f hlen
        simp only [rdf_list_to_py] at hih
        simp [rdf_list_to_py, rdf_list_walk, hne, hfst, hrst, hih]

/-- Witness for C6: a concrete two-element list materialized in order. -/
theorem c6_witness :
    rdf_list_to_py gList 3 lnk1 = some [Node.uri "http://ex/a", Node.uri "http://ex/b"] := by
  have hl2 : IsRdfList gList lnk2 [Node.uri "http://ex/b"] :=
    IsRdfList.cons (by decide) (by rfl) (by rfl) IsRdfList.nil
  have hl1 : IsRdfList gList lnk1 [Node.uri "http://ex/a", Node.uri "http://ex/b"] :=
    IsRdfList.cons (by decide) (by rfl) (by rfl) hl2
  exact c6_list_materializer.1 gList lnk1 _ hl1 3 (by decide)

/-! Claim C8: the Property Characteristics Extractor. -/

/-- C8: for every property node the extractor returns exactly the tags
of the seven capability classes whose typing triple is present, in the
fixed check order; the result depends only on which triples are in the
graph, not on their order; and a property typed both functional and
transitive yields exactly `["Functional", "Transitive"]` even when the
transitivity triple is listed first. -/
theorem c8_characteristics_order :
    (∀ g p, extract_property_characteristics g p =
      (charPairs.filter (fun c => gMem g p rdfType c.1)).map Prod.snd) ∧
    (∀ g g' p, (∀ t, t ∈ g ↔ t ∈ g') →
      extract_property_characteristics g p = extract_property_characteristics g' p) ∧
    extract_property_characteristics gFT pEx = ["Functional", "Transitive"] := by
  have hfilter : ∀ g p, extract_property_characteristics g p =
      (charPairs.filter (fun c => gMem g p rdfType c.1)).map Prod.snd := by
    intro g p
    simp only [extract_property_characteristics, charPairs]
    by_cases h1 : gMem g p rdfType owlFunctionalProperty = true <;>
    by_cases h2 : gMem g p rdfType owlInverseFunctionalProperty = true <;>
    by_cases h3 : gMem g p rdfType owlTransitiveProperty = true <;>
    by_cases h4 : gMem g p rdfType owlSymmetricProperty = true <;>
    by_cases h5 : gMem g p rdfType owlAsymmetricProperty = true <;>
    by_cases h6 : gMem g p rdfType owlReflexiveProperty = true <;>
    by_cases h7 : gMem g p rdfType owlIrreflexiveProperty = true <;>
    simp [h1, h2, h3, h4, h5, h6, h7]
  refine ⟨hfilter, ?_, ?_⟩
  · intro g g' p h
    rw [hfilter, hfilter]
    have hc : ∀ c ∈ charPairs, gMem g p rdfType c.1 = gMem g' p rdfType c.1 :=
      fun c _ => gMem_congr h
    rw [List.filter_congr hc]
  · rfl

/-- Witness for C8: two permuted concrete graphs produce the same
characteristics list. -/
theorem c8_witness :
    extract_property_characteristics gFT pEx = extract_property_characteristics gFT' pEx := by
  have hiff : ∀ t : Triple, t ∈ gFT ↔ t ∈ gFT' := by
    intro t
    simp only [gFT, gFT', List.mem_cons, List.not_mem_nil, or_false]
    tauto
  exact c8_characteristics_order.2.1 gFT gFT' pEx hiff

/-! Claim C9: top-level error handling. -/

/-- C9: a parse failure propagates — `main` exits with a non-zero code,
having printed only the pre-parse message, and writes no output file;
any run that writes a file first completed parsing and term gathering;
and a missing input argument prints the usage message and exits with a
non-zero status. -/
theorem c9_main_errors :
    (∀ prog infile rest parse fuel e, parse infile = Except.error e →
      mainRun (prog :: infile :: rest) parse fuel = some (1, ["Parsing: " ++ infile], [])) ∧
    (∀ argv parse fuel c msgs ws, mainRun argv parse fuel = some (c, msgs, ws) → ws ≠ [] →
      ∃ prog infile rest g terms, argv = prog :: infile :: rest ∧
        parse infile = Except.ok g ∧ gather_terms g fuel = some terms) ∧
    (∀ prog parse fuel, mainRun [prog] parse fuel = some (1, [usageMessage], [])) := by
  refine ⟨?_, ?_, ?_⟩
  · intro prog infile rest parse fuel e h
    simp [mainRun, h]
  · intro argv parse fuel c msgs ws h hw
    match argv with
    | [] => simp [mainRun] at h; exact absurd h.2.2 hw
    | [prog] => simp [mainRun] at h; exact absurd h.2.2 hw
    | prog :: infile :: rest =>
      refine ⟨prog, infile, rest, ?_⟩
      cases hp : parse infile with
      | error e =>
        simp [mainRun, hp] at h
        exact absurd h.2.2 hw
      | ok g =>
        cases ht : gather_terms g fuel with
        | none => simp [mainRun, hp, ht] at h
        | some terms => exact ⟨g, terms, rfl, rfl, ht⟩
  · intro prog parse fuel
    rfl

/-- Witness for C9: a failing parser yields exit code 1, the pre-parse
message only, and no written files. -/
theorem c9_witness :
    mainRun ["prog", "in.ttl"] (fun _ => Except.error "malformed") 5
      = some (1, ["Parsing: " ++ "in.ttl"], []) :=
  c9_main_errors.1 "prog" "in.ttl" [] (fun _ => Except.error "malformed") 5 "malformed" rfl

/-! Dispatch analysis of the Expression Summarizer. -/

theorem summarize_succ (g : Graph) (fuel : Nat) (node : Node) :
    summarize_expression g (fuel + 1) node =
      summarizeStep g (fun v => summarize_expression g fuel v)
        (fun l => rdf_list_to_py g fuel l) node := rfl

theorem summarize_some_cases (g : Graph) (f : Nat) (n : Node) (e : Expr)
    (h : summarize_expression g (f + 1) n = some e) :
    (∃ s, n = Node.uri s ∧ e = Expr.named s) ∨
    (∃ s, n = Node.lit s ∧ e = Expr.litE s) ∨
    (∃ b fs, n = Node.bnode b ∧ isRestrictionShaped g n = true ∧
      buildFillers g (fun v => summarize_expression g f v) n = some fs ∧
      e = Expr.restriction (fq (Graph.value g n owlOnProperty)) fs) ∨
    (∃ b inter items ops, n = Node.bnode b ∧ isRestrictionShaped g n = false ∧
      Graph.value g n owlIntersectionOf = some inter ∧
      rdf_list_to_py g f inter = some items ∧
      items.mapM (fun v => summarize_expression g f v) = some ops ∧
      e = Expr.interE ops) ∨
    (∃ b un items ops, n = Node.bnode b ∧ isRestrictionShaped g n = false ∧
      Graph.value g n owlIntersectionOf = none ∧
      Graph.value g n owlUnionOf = some un ∧
      rdf_list_to_py g f un = some items ∧
      items.mapM (fun v => summarize_expression g f v) = some ops ∧
      e = Expr.unionE ops) ∨
    (∃ b comp op, n = Node.bnode b ∧ isRestrictionShaped g n = false ∧
      Graph.value g n owlIntersectionOf = none ∧
      Graph.value g n owlUnionOf = none ∧
      Graph.value g n owlComplementOf = some comp ∧
      summarize_expression g f comp = some op ∧
      e = Expr.complE op) ∨
    (∃ b oo items ops, n = Node.bnode b ∧ isRestrictionShaped g n = false ∧
      Graph.value g n owlIntersectionOf = none ∧
      Graph.value g n owlUnionOf = none ∧
      Graph.value g n owlComplementOf = none ∧
      Graph.value g n owlOneOf = some oo ∧
      rdf_list_to_py g f oo = some items ∧
      items.mapM (fun v => summarize_expression g f v) = some ops ∧
      e = Expr.oneOfE ops) ∨
    (∃ b, n = Node.bnode b ∧ isRestrictionShaped g n = false ∧
      Graph.value g n owlIntersectionOf = none ∧
      Graph.value g n owlUnionOf = none ∧
      Graph.value g n owlComplementOf = none ∧
      Graph.value g n owlOneOf = none ∧
      e = Expr.bnodeE (bnodeProps g n)) := by
  rw [summarize_succ] at h
  cases n with
  | uri s =>
    simp only [summarizeStep, Option.some.injEq] at h
    exact Or.inl ⟨s, rfl, h.symm⟩
  | lit s =>
    simp only [summarizeStep, Option.some.injEq] at h
    exact Or.inr (Or.inl ⟨s, rfl, h.symm⟩)
  | bnode b0 =>
    simp only [summarizeStep] at h
    by_cases hr : isRestrictionShaped g (Node.bnode b0) = true
    · rw [if_pos hr] at h
      rw [Option.map_eq_some'] at h
      obtain ⟨fs, hfs, he⟩ := h
      exact Or.inr (Or.inr (Or.inl ⟨b0, fs, rfl, hr, hfs, he.symm⟩))
    · rw [if_neg hr] at h
      have hrf : isRestrictionShaped g (Node.bnode b0) = false := by
        revert hr; cases isRestrictionShaped g (Node.bnode b0) <;> simp
      cases hi : Graph.value g (Node.bnode b0) owlIntersectionOf with
      | some inter =>
        simp only [hi] at h
        cases hw : rdf_list_to_py g f inter with
        | none => simp only [hw] at h; exact Option.noConfusion h
        | some items =>
          simp only [hw] at h
          cases hm : items.mapM (fun v => summarize_expression g f v) with
          | none => simp only [hm] at h; exact Option.noConfusion h
          | some ops =>
            simp only [hm, Option.some.injEq] at h
            exact Or.inr (Or.inr (Or.inr (Or.inl
              ⟨b0, inter, items, ops, rfl, hrf, rfl, hw, hm, h.symm⟩)))
      | none =>
        simp only [hi] at h
        cases hu : Graph.value g (Node.bnode b0) owlUnionOf with
        | some un =>
          simp only [hu] at h
          cases hw : rdf_list_to_py g f un with
          | none => simp only [hw] at h; exact Option.noConfusion h
          | some items =>
            simp only [hw] at h
            cases hm : items.mapM (fun v => summarize_expression g f v) with
            | none => simp only [hm] at h; exact Option.noConfusion h
            | some ops =>
              simp only [hm, Option.some.injEq] at h
              exact Or.inr (Or.inr (Or.inr (Or.inr (Or.inl
                ⟨b0, un, items, ops, rfl, hrf, rfl, rfl, hw, hm, h.symm⟩))))
        | none =>
          simp only [hu] at h
          cases hc : Graph.value g (Node.bnode b0) owlComplementOf with
          | some comp =>
            simp only [hc] at h
            cases hs : summarize_expression g f comp with
            | none =>
              simp only [hs, Option.map_none'] at h
              exact Option.noConfusion h
            | some op =>
              simp only [hs, Option.map_some', Option.some.injEq] at h
              exact Or.inr (Or.inr (Or.inr (Or.inr (Or.inr (Or.inl
                ⟨b0, comp, op, rfl, hrf, rfl, rfl, rfl, hs, h.symm⟩)))))
          | none =>
            simp only [hc] at h
            cases ho : Graph.value g (Node.bnode b0) owlOneOf with
            | some oo =>
              simp only [ho] at h
              cases hw : rdf_list_to_py g f oo with
              | none => simp only [hw] at h; exact Option.noConfusion h
              | some items =>
                simp only [hw] at h
                cases hm : items.mapM (fun v => summarize_expression g f v) with
                | none => simp only [hm] at h; exact Option.noConfusion h
                | some ops =>
                  simp only [hm, Option.some.injEq] at h
                  exact Or.inr (Or.inr (Or.inr (Or.inr (Or.inr (Or.inr (Or.inl
                    ⟨b0, oo, items, ops, rfl, hrf, rfl, rfl, rfl, rfl, hw, hm, h.symm⟩))))))
            | none =>
              simp only [ho, Option.some.injEq] at h
              exact Or.inr (Or.inr (Or.inr (Or.inr (Or.inr (Or.inr (Or.inr
                ⟨b0, rfl, hrf, rfl, rfl, rfl, rfl, h.symm⟩))))))

/-! Claim C1: dispatch priority of the Expression Summarizer. -/

/-- C1: whenever the summarizer completes on a node, its record is the
one prescribed by the first matching rule of the fixed priority order:
named resource, literal, restriction shape (declared `owl:Restriction`
or bearing `owl:onProperty`), `intersectionOf` link, `unionOf` link,
`complementOf` link, `oneOf` link, and finally the `BNode` fallback
holding the immediate (predicate, object) pairs grouped by predicate as
string forms.  The terminal `Unknown` rule is vacuous because the three
node variants exhaust the data model, so the summarizer never emits it;
each earlier rule fires even when a later link is also present. -/
theorem c1_dispatch_priority (g : Graph) (fuel : Nat) (n : Node) (e : Expr)
    (h : summarize_expression g fuel n = some e) :
    (∀ s, n = Node.uri s → e = Expr.named s) ∧
    (∀ s, n = Node.lit s → e = Expr.litE s) ∧
    (∀ b, n = Node.bnode b → isRestrictionShaped g n = true →
      ∃ fs, e = Expr.restriction (fq (Graph.value g n owlOnProperty)) fs) ∧
    (∀ b, n = Node.bnode b → isRestrictionShaped g n = false →
      (Graph.value g n owlIntersectionOf).isSome = true →
      ∃ ops, e = Expr.interE ops) ∧
    (∀ b, n = Node.bnode b → isRestrictionShaped g n = false →
      Graph.value g n owlIntersectionOf = none →
      (Graph.value g n owlUnionOf).isSome = true →
      ∃ ops, e = Expr.unionE ops) ∧
    (∀ b, n = Node.bnode b → isRestrictionShaped g n = false →
      Graph.value g n owlIntersectionOf = none →
      Graph.value g n owlUnionOf = none →
      (Graph.value g n owlComplementOf).isSome = true →
      ∃ op, e = Expr.complE op) ∧
    (∀ b, n = Node.bnode b → isRestrictionShaped g n = false →
      Graph.value g n owlIntersectionOf = none →
      Graph.value g n owlUnionOf = none →
      Graph.value g n owlComplementOf = none →
      (Graph.value g n owlOneOf).isSome = true →
      ∃ ops, e = Expr.oneOfE ops) ∧
    (∀ b, n = Node.bnode b → isRestrictionShaped g n = false →
      Graph.value g n owlIntersectionOf = none →
      Graph.value g n owlUnionOf = none →
      Graph.value g n owlComplementOf = none →
      Graph.value g n owlOneOf = none →
      e = Expr.bnodeE (bnodeProps g n)) ∧
    (∀ v, e ≠ Expr.unknownE v) := by
  cases fuel with
  | zero => exact absurd h (by simp [summarize_expression])
  | succ f =>
    have hc := summarize_some_cases g f n e h
    refine ⟨?_, ?_, ?_, ?_, ?_, ?_, ?_, ?_, ?_⟩
    · intro s hs
      subst hs
      rcases hc with ⟨s', h1, h2⟩ | ⟨s', h1, _⟩ | ⟨b, _, h1, _⟩ | ⟨b, _, _, _, h1, _⟩ |
        ⟨b, _, _, _, h1, _⟩ | ⟨b, _, _, h1, _⟩ | ⟨b, _, _, _, h1, _⟩ | ⟨b, h1, _⟩ <;>
        simp_all
    · intro s hs
      subst hs
      rcases hc with ⟨s', h1, _⟩ | ⟨s', h1, h2⟩ | ⟨b, _, h1, _⟩ | ⟨b, _, _, _, h1, _⟩ |
        ⟨b, _, _, _, h1, _⟩ | ⟨b, _, _, h1, _⟩ | ⟨b, _, _, _, h1, _⟩ | ⟨b, h1, _⟩ <;>
        simp_all
    · intro b hb hr
      subst hb
      rcases hc with ⟨s', h1, _⟩ | ⟨s', h1, _⟩ | ⟨b', fs, h1, h2, h3, h4⟩ |
        ⟨b', _, _, _, h1, h2, _⟩ | ⟨b', _, _, _, h1, h2, _⟩ | ⟨b', _, _, h1, h2, _⟩ |
        ⟨b', _, _, _, h1, h2, _⟩ | ⟨b', h1, h2, _⟩ <;> simp_all
    · intro b hb hr hi
      subst hb
      rcases hc with ⟨s', h1, _⟩ | ⟨s', h1, _⟩ | ⟨b', fs, h1, h2, _⟩ |
        ⟨b', inter, items, ops, h1, h2, h3, h4, h5, h6⟩ |
        ⟨b', _, _, _, h1, h2, h3, _⟩ | ⟨b', _, _, h1, h2, h3, _⟩ |
        ⟨b', _, _, _, h1, h2, h3, _⟩ | ⟨b', h1, h2, h3, _⟩ <;> simp_all
    · intro b hb hr hi hu
      subst hb
      rcases hc with ⟨s', h1, _⟩ | ⟨s', h1, _⟩ | ⟨b', fs, h1, h2, _⟩ |
        ⟨b', inter, _, _, h1, h2, h3, _⟩ |
        ⟨b', un, items, ops, h1, h2, h3, h4, h5, h6, h7⟩ |
        ⟨b', _, _, h1, h2, h3, h4, _⟩ | ⟨b', _, _, _, h1, h2, h3, h4, _⟩ |
        ⟨b', h1, h2, h3, h4, _⟩ <;> simp_all
    · intro b hb hr hi hu hcmp
      subst hb
      rcases hc with ⟨s', h1, _⟩ | ⟨s', h1, _⟩ | ⟨b', fs, h1, h2, _⟩ |
        ⟨b', inter, _, _, h1, h2, h3, _⟩ | ⟨b', un, _, _, h1, h2, h3, h4, _⟩ |
        ⟨b', comp, op, h1, h2, h3, h4, h5, h6, h7⟩ |
        ⟨b', _, _, _, h1, h2, h3, h4, h5, _⟩ | ⟨b', h1, h2, h3, h4, h5, _⟩ <;> simp_all
    · intro b hb hr hi hu hcmp ho
      subst hb
      rcases hc with ⟨s', h1, _⟩ | ⟨s', h1, _⟩ | ⟨b', fs, h1, h2, _⟩ |
        ⟨b', inter, _, _, h1, h2, h3, _⟩ | ⟨b', un, _, _, h1, h2, h3, h4, _⟩ |
        ⟨b', comp, _, h1, h2, h3, h4, h5, _⟩ |
        ⟨b', oo, items, ops, h1, h2, h3, h4, h5, h6, h7, h8, h9⟩ |
        ⟨b', h1, h2, h3, h4, h5, h6, _⟩ <;> simp_all
    · intro b hb hr hi hu hcmp ho
      subst hb
      rcases hc with ⟨s', h1, _⟩ | ⟨s', h1, _⟩ | ⟨b', fs, h1, h2, _⟩ |
        ⟨b', inter, _, _, h1, h2, h3, _⟩ | ⟨b', un, _, _, h1, h2, h3, h4, _⟩ |
        ⟨b', comp, _, h1, h2, h3, h4, h5, _⟩ |
        ⟨b', oo, _, _, h1, h2, h3, h4, h5, h6, _⟩ |
        ⟨b', h1, h2, h3, h4, h5, h6, h7⟩ <;> simp_all
    · intro v
      rcases hc with ⟨s', h1, h2⟩ | ⟨s', h1, h2⟩ | ⟨b', fs, h1, h2, h3, h4⟩ |
        ⟨b', inter, _, _, h1, h2, h3, h4, h5, h6⟩ |
        ⟨b', un, _, _, h1, h2, h3, h4, h5, h6, h7⟩ |
        ⟨b', comp, _, h1, h2, h3, h4, h5, h6⟩ |
        ⟨b', oo, _, _, h1, h2, h3, h4, h5, h6, h7, h8, h9⟩ |
        ⟨b', h1, h2, h3, h4, h5, h6, h7⟩ <;> simp_all

/-- Witness for C1: on a node that is both a declared restriction and
carries an `owl:intersectionOf` link, the completed summary is the
restriction record — the earlier rule wins. -/
theorem c1_witness :
    ∃ fs, Expr.restriction none ([] : List (String × Expr)) =
      Expr.restriction (fq (Graph.value gPriority rNode owlOnProperty)) fs := by
  have h := c1_dispatch_priority gPriority 1 rNode
    (Expr.restriction none []) (by rfl)
  exact h.2.2.1 "r" rfl (by rfl)

/-! Claim C2: restriction filler fields. -/

theorem buildFillersAux_spec (g : Graph) (summ : Node → Option Expr) (n : Node) :
    ∀ ps acc fs, buildFillersAux g summ n ps acc = some fs →
      fs.map Prod.fst = acc.map Prod.fst ++
        ((ps.filter (fun pk => (Graph.value g n pk.1).isSome)).map Prod.snd) ∧
      ∀ kv ∈ fs, kv ∈ acc ∨ ∃ p val, (p, kv.1) ∈ ps ∧ Graph.value g n p = some val ∧
        ((∃ s, val = Node.lit s ∧ kv.2 = Expr.rawE s) ∨
         ((∀ s, val ≠ Node.lit s) ∧ summ val = some kv.2)) := by
  intro ps
  induction ps with
  | nil =>
    intro acc fs h
    simp only [buildFillersAux, Option.some.injEq] at h
    subst h
    exact ⟨by simp, fun kv hkv => Or.inl hkv⟩
  | cons pk rest ih =>
    intro acc fs h
    simp only [buildFillersAux] at h
    cases hv : Graph.value g n pk.1 with
    | none =>
      simp only [hv] at h
      obtain ⟨hkeys, hmem⟩ := ih acc fs h
      constructor
      · rw [hkeys, List.filter_cons]
        simp [hv]
      · intro kv hkv
        rcases hmem kv hkv with hacc | ⟨p, val, hp, hval, hform⟩
        · exact Or.inl hacc
        · exact Or.inr ⟨p, val, List.mem_cons_of_mem _ hp, hval, hform⟩
    | some val =>
      simp only [hv] at h
      cases val with
      | lit s =>
        obtain ⟨hkeys, hmem⟩ := ih (acc ++ [(pk.2, Expr.rawE s)]) fs h
        constructor
        · rw [hkeys, List.filter_cons]
          simp [hv]
        · intro kv hkv
          rcases hmem kv hkv with hacc | ⟨p, val', hp, hval, hform⟩
          · rcases List.mem_append.mp hacc with hl | hr
            · exact Or.inl hl
            · have hkv2 : kv = (pk.2, Expr.rawE s) := by simpa using hr
              refine Or.inr ⟨pk.1, Node.lit s, ?_, hv, Or.inl ⟨s, rfl, by rw [hkv2]⟩⟩
              rw [hkv2]
              exact List.mem_cons_self _ _
          · exact Or.inr ⟨p, val', List.mem_cons_of_mem _ hp, hval, hform⟩
      | uri u =>
        cases hs : summ (Node.uri u) with
        | none => simp only [hs] at h; exact Option.noConfusion h
        | some ev =>
          simp only [hs] at h
          obtain ⟨hkeys, hmem⟩ := ih (acc ++ [(pk.2, ev)]) fs h
          constructor
          · rw [hkeys, List.filter_cons]
            simp [hv]
          · intro kv hkv
            rcases hmem kv hkv with hacc | ⟨p, val', hp, hval, hform⟩
            · rcases List.mem_append.mp hacc with hl | hr
              · exact Or.inl hl
              · have hkv2 : kv = (pk.2, ev) := by simpa using hr
                refine Or.inr ⟨pk.1, Node.uri u, ?_, hv,
                  Or.inr ⟨fun s hc => Node.noConfusion hc, by rw [hkv2]; exact hs⟩⟩
                rw [hkv2]
                exact List.mem_cons_self _ _
            · exact Or.inr ⟨p, val', List.mem_cons_of_mem _ hp, hval, hform⟩
      | bnode u =>
        cases hs : summ (Node.bnode u) with
        | none => simp only [hs] at h; exact Option.noConfusion h
        | some ev =>
          simp only [hs] at h
          obtain ⟨hkeys, hmem⟩ := ih (acc ++ [(pk.2, ev)]) fs h
          constructor
          · rw [hkeys, List.filter_cons]
            simp [hv]
          · intro kv hkv
            rcases hmem kv hkv with hacc | ⟨p, val', hp, hval, hform⟩
            · rcases List.mem_append.mp hacc with hl | hr
              · exact Or.inl hl
              · have hkv2 : kv = (pk.2, ev) := by simpa using hr
                refine Or.inr ⟨pk.1, Node.bnode u, ?_, hv,
                  Or.inr ⟨fun s hc => Node.noConfusion hc, by rw [hkv2]; exact hs⟩⟩
                rw [hkv2]
                exact List.mem_cons_self _ _
            · exact Or.inr ⟨p, val', List.mem_cons_of_mem _ hp, hval, hform⟩

/-- C2 (amended): every completed Restriction record carries, besides
the always-present `onProperty` field, exactly those filler fields
among the nine whose predicate has a value on the node — zero, one, or
several, not always one — in the fixed filler order; each present
filler is a nested summarized record when the value is a node and the
raw string form when it is a literal; absent fillers are omitted
entirely. -/
theorem c2_restriction_fillers (g : Graph) (fuel : Nat) (n : Node) (op : Option String)
    (fs : List (String × Expr))
    (h : summarize_expression g fuel n = some (Expr.restriction op fs)) :
    op = fq (Graph.value g n owlOnProperty) ∧
    fs.map Prod.fst = presentFillerKeys g n ∧
    ∀ kv ∈ fs, ∃ p val, (p, kv.1) ∈ fillerPairs ∧ Graph.value g n p = some val ∧
      ((∃ s, val = Node.lit s ∧ kv.2 = Expr.rawE s) ∨
       ((∀ s, val ≠ Node.lit s) ∧
        ∃ f', fuel = f' + 1 ∧ summarize_expression g f' val = some kv.2)) := by
  cases fuel with
  | zero => exact absurd h (by simp [summarize_expression])
  | succ f =>
    rcases summarize_some_cases g f n (Expr.restriction op fs) h with
      ⟨s, _, h2⟩ | ⟨s, _, h2⟩ | ⟨b, fs', hb, hr, hbf, heq⟩ |
      ⟨b, _, _, _, _, _, _, _, _, h2⟩ | ⟨b, _, _, _, _, _, _, _, _, _, h2⟩ |
      ⟨b, _, _, _, _, _, _, _, _, h2⟩ | ⟨b, _, _, _, _, _, _, _, _, _, _, _, h2⟩ |
      ⟨b, _, _, _, _, _, _, h2⟩
    · exact absurd h2 (by simp)
    · exact absurd h2 (by simp)
    · have hop : op = fq (Graph.value g n owlOnProperty) := by
        injection heq
      have hfs : fs = fs' := by
        injection heq
      subst hfs
      obtain ⟨hkeys, hmem⟩ := buildFillersAux_spec g _ n fillerPairs [] fs hbf
      refine ⟨hop, by simpa [presentFillerKeys] using hkeys, ?_⟩
      intro kv hkv
      rcases hmem kv hkv with hacc | ⟨p, val, hp, hval, hform⟩
      · exact absurd hacc (List.not_mem_nil kv)
      · refine ⟨p, val, hp, hval, ?_⟩
        rcases hform with hl | ⟨hnl, hsum⟩
        · exact Or.inl hl
        · exact Or.inr ⟨hnl, f, rfl, hsum⟩
    · exact absurd h2 (by simp)
    · exact absurd h2 (by simp)
    · exact absurd h2 (by simp)
    · exact absurd h2 (by simp)
    · exact absurd h2 (by simp)

/-- Counterexample for C2: a declared restriction carrying both an
`owl:someValuesFrom` and an `owl:minCardinality` triple is summarized
into a Restriction record with two filler fields, not exactly one. -/
theorem c2_counterexample :
    summarize_expression gTwoFillers 2 rNode =
      some (Expr.restriction (some "http://ex/P")
        [("someValuesFrom", Expr.named "http://ex/C"), ("minCardinality", Expr.rawE "1")]) ∧
    (restrictionFillers (Expr.restriction (some "http://ex/P")
        [("someValuesFrom", Expr.named "http://ex/C"),
         ("minCardinality", Expr.rawE "1")])).length = 2 := ⟨rfl, rfl⟩

/-- Witness for C2 (amended): on the two-filler restriction the present
filler keys are exactly the two predicates present, in fixed order. -/
theorem c2_witness :
    (["someValuesFrom", "minCardinality"] : List String) = presentFillerKeys gTwoFillers rNode := by
  have h := c2_restriction_fillers gTwoFillers 2 rNode (some "http://ex/P")
    [("someValuesFrom", Expr.named "http://ex/C"), ("minCardinality", Expr.rawE "1")] rfl
  simpa using h.2.1

/-! Claim C10: the null-filled onProperty field. -/

theorem mem_fieldsToJson {fs : List (String × Expr)} {kv : String × J}
    (h : kv ∈ fieldsToJson fs) : ∃ p, p ∈ fs ∧ kv = (p.1, exprToJson p.2) := by
  induction fs with
  | nil => simp [fieldsToJson] at h
  | cons a rest ih =>
    obtain ⟨k, e⟩ := a
    rw [fieldsToJson] at h
    rcases List.mem_cons.mp h with h | h
    · exact ⟨(k, e), List.mem_cons_self _ _, h⟩
    · obtain ⟨p, hp, hkv⟩ := ih h
      exact ⟨p, List.mem_cons_of_mem _ hp, hkv⟩

theorem exprToJson_ne_null (e : Expr) : exprToJson e ≠ J.jnull := by
  cases e <;> simp [exprToJson]

/-- C10: for an anonymous node declared `owl:Restriction` with no
`owl:onProperty` triple, any completed summary is still a Restriction
record whose `onProperty` field is present, serialized with a null
value rather than omitted; and no filler field of a restriction record
is ever serialized as null — `onProperty` is the only null-filled
field. -/
theorem c10_onproperty_null (g : Graph) (fuel : Nat) (b : String) (e : Expr)
    (hdecl : gMem g (Node.bnode b) rdfType owlRestriction = true)
    (hnop : Graph.value g (Node.bnode b) owlOnProperty = none)
    (h : summarize_expression g fuel (Node.bnode b) = some e) :
    ∃ fs, e = Expr.restriction none fs ∧
      ("onProperty", J.jnull) ∈ jsonFields (exprToJson e) ∧
      ∀ kv ∈ jsonFields (exprToJson e), kv.1 ≠ "exprType" → kv.1 ≠ "onProperty" →
        kv.2 ≠ J.jnull := by
  cases fuel with
  | zero => exact absurd h (by simp [summarize_expression])
  | succ f =>
    have hr : isRestrictionShaped g (Node.bnode b) = true := by
      simp [isRestrictionShaped, hdecl]
    rcases summarize_some_cases g f (Node.bnode b) e h with
      ⟨s, h1, _⟩ | ⟨s, h1, _⟩ | ⟨b', fs, hb, _, hbf, heq⟩ |
      ⟨b', _, _, _, _, hrf, _⟩ | ⟨b', _, _, _, _, hrf, _⟩ | ⟨b', _, _, _, hrf, _⟩ |
      ⟨b', _, _, _, _, hrf, _⟩ | ⟨b', _, hrf, _⟩
    · exact absurd h1 (by simp)
    · exact absurd h1 (by simp)
    · refine ⟨fs, by rw [heq, hnop]; rfl, ?_, ?_⟩
      · rw [heq, hnop]
        simp [exprToJson, jsonFields, jOfOptStr, fq]
      · intro kv hkv h1 h2
        rw [heq, hnop] at hkv
        simp only [fq, Option.map_none', exprToJson, jsonFields, jOfOptStr] at hkv
        rcases List.mem_cons.mp hkv with hkv1 | hkv2
        · rw [hkv1] at h1
          simp at h1
        · rcases List.mem_cons.mp hkv2 with hkv3 | hkv4
          · rw [hkv3] at h2
            simp at h2
          · obtain ⟨p, _, hkvp⟩ := mem_fieldsToJson hkv4
            rw [hkvp]
            exact exprToJson_ne_null p.2
    · exact absurd hrf (by simp [hr])
    · exact absurd hrf (by simp [hr])
    · exact absurd hrf (by simp [hr])
    · exact absurd hrf (by simp [hr])
    · exact absurd hrf (by simp [hr])

/-- Witness for C10: the filler-free declared restriction summarizes to
a Restriction record with a present, null onProperty field. -/
theorem c10_witness :
    ∃ fs, Expr.restriction none ([] : List (String × Expr)) = Expr.restriction none fs ∧
      ("onProperty", J.jnull) ∈ jsonFields (exprToJson (Expr.restriction none [])) ∧
      ∀ kv ∈ jsonFields (exprToJson (Expr.restriction none [])), kv.1 ≠ "exprType" →
        kv.1 ≠ "onProperty" → kv.2 ≠ J.jnull :=
  c10_onproperty_null gDecl 1 "r" (Expr.restriction none []) (by rfl) (by rfl) (by rfl)

/-! Claim C3: the Annotation Collector's exclusions. -/

theorem mem_predicateObjects {g : Graph} {s p o : Node} :
    (p, o) ∈ Graph.predicateObjects g s ↔ (s, p, o) ∈ g := by
  simp only [Graph.predicateObjects, List.mem_map, List.mem_filter, decide_eq_true_eq]
  constructor
  · rintro ⟨⟨t1, t2, t3⟩, ⟨hmem, h1⟩, h3⟩
    simp only at h1
    simp only [Prod.mk.injEq] at h3
    obtain ⟨hp, ho⟩ := h3
    subst h1; subst hp; subst ho
    exact hmem
  · intro h
    exact ⟨(s, p, o), ⟨h, rfl⟩, rfl⟩

theorem mem_keys_annAppendOne {m : List (String × List String)} {k v k' : String} :
    k' ∈ (annAppendOne m k v).map Prod.fst ↔ k' ∈ m.map Prod.fst ∨ k' = k := by
  induction m with
  | nil => simp [annAppendOne]
  | cons a rest ih =>
    obtain ⟨ka, va⟩ := a
    by_cases hk : ka = k
    · subst hk
      simp [annAppendOne]
      tauto
    · simp only [annAppendOne, if_neg hk, List.map_cons, List.mem_cons, ih]
      tauto

theorem collect_keys_aux :
    ∀ (l : List (Node × Node)) (acc : List (String × List String)) (k : String),
      k ∈ (l.foldl (fun ann po => if po.1 ∈ structuralExclusions then ann
            else annAppendOne ann (Node.str po.1) (Node.str po.2)) acc).map Prod.fst ↔
      k ∈ acc.map Prod.fst ∨ ∃ po ∈ l, po.1 ∉ structuralExclusions ∧ k = Node.str po.1 := by
  intro l
  induction l with
  | nil => simp
  | cons po rest ih =>
    intro acc k
    simp only [List.foldl_cons]
    by_cases hex : po.1 ∈ structuralExclusions
    · rw [if_pos hex, ih]
      constructor
      · rintro (h | ⟨po', hpo', hni, hk⟩)
        · exact Or.inl h
        · exact Or.inr ⟨po', List.mem_cons_of_mem _ hpo', hni, hk⟩
      · rintro (h | ⟨po', hpo', hni, hk⟩)
        · exact Or.inl h
        · rcases List.mem_cons.mp hpo' with heq | hmem
          · subst heq; exact absurd hex hni
          · exact Or.inr ⟨po', hmem, hni, hk⟩
    · rw [if_neg hex, ih, mem_keys_annAppendOne]
      constructor
      · rintro ((h | hk) | ⟨po', hpo', hni, hk⟩)
        · exact Or.inl h
        · exact Or.inr ⟨po, List.mem_cons_self _ _, hex, hk⟩
        · exact Or.inr ⟨po', List.mem_cons_of_mem _ hpo', hni, hk⟩
      · rintro (h | ⟨po', hpo', hni, hk⟩)
        · exact Or.inl (Or.inl h)
        · rcases List.mem_cons.mp hpo' with heq | hmem
          · subst heq; exact Or.inl (Or.inr hk)
          · exact Or.inr ⟨po', hmem, hni, hk⟩

/-- C3 (amended): the Annotation Collector's mapping excludes exactly
the six structural predicates rdf:type, rdfs:subClassOf,
owl:equivalentClass, rdfs:domain, rdfs:range and rdfs:subPropertyOf —
every entry comes from a non-excluded predicate on the subject and
every non-excluded predicate on the subject yields an entry.
Predicates captured structurally elsewhere in the Term Record, such as
labels, comments or inverseOf links, are not excluded, so their values
appear both structurally and in the annotation mapping. -/
theorem c3_annotation_exclusions (g : Graph) (subject : Node) :
    (∀ k ∈ (collect_annotations g subject).map Prod.fst,
      ∃ p o, (subject, p, o) ∈ g ∧ p ∉ structuralExclusions ∧ k = Node.str p) ∧
    (∀ p o, (subject, p, o) ∈ g → p ∉ structuralExclusions →
      Node.str p ∈ (collect_annotations g subject).map Prod.fst) := by
  constructor
  · intro k hk
    rw [collect_annotations] at hk
    rcases (collect_keys_aux (Graph.predicateObjects g subject) [] k).mp hk with
      h | ⟨po, hpo, hni, hk'⟩
    · simp at h
    · obtain ⟨p0, o0⟩ := po
      exact ⟨p0, o0, mem_predicateObjects.mp hpo, hni, hk'⟩
  · intro p o hmem hni
    rw [collect_annotations]
    exact (collect_keys_aux (Graph.predicateObjects g subject) [] (Node.str p)).mpr
      (Or.inr ⟨(p, o), mem_predicateObjects.mpr hmem, hni, rfl⟩)

/-- Counterexample for C3: the label triple of `gLabel` is captured
structurally in `labels` and nevertheless also reappears under the
`rdfs:label` key of the same record's annotations — the collector does
not exclude every structurally-modeled predicate. -/
theorem c3_counterexample :
    gather_terms gLabel 1 = some [c3entry] ∧
    c3entry.labels = ["X"] ∧
    ("http://www.w3.org/2000/01/rdf-schema#label", ["X"]) ∈ c3entry.annotations :=
  ⟨rfl, rfl, List.mem_cons_self _ _⟩

/-- Witness for C3 (amended): the non-excluded label predicate shows up
as an annotation key on the concrete graph. -/
theorem c3_witness :
    Node.str rdfsLabel ∈ (collect_annotations gLabel aEx).map Prod.fst :=
  (c3_annotation_exclusions gLabel aEx).2 rdfsLabel (Node.lit "X")
    (by simp [gLabel]) (by decide)

/-! Claim C4: class-expression accumulation. -/

theorem accumulateCommon_subClassOf (g : Graph) (cat : String) (node : Node) (e0 : Entry) :
    (accumulateCommon g cat node e0).subClassOf = e0.subClassOf := by
  unfold accumulateCommon
  split <;> split <;> rfl

theorem accumulateCommon_equivalentClass (g : Graph) (cat : String) (node : Node) (e0 : Entry) :
    (accumulateCommon g cat node e0).equivalentClass = e0.equivalentClass := by
  unfold accumulateCommon
  split <;> split <;> rfl

theorem processTerm_class_eq (g : Graph) (fuel : Nat) (se : List (String × Entry)) (node : Node) :
    processTerm g fuel se ("Class", node) =
      ((Graph.objects g node rdfsSubClassOf).mapM (fun o => summarize_expression g fuel o)).bind
        (fun subs =>
          ((Graph.objects g node owlEquivalentClass).mapM
              (fun o => summarize_expression g fuel o)).bind
            (fun eqs =>
              some (dictSet se (Node.str node)
                (let e6 := accumulateCommon g "Class" node
                  ((dictGet se (Node.str node)).getD (defaultEntry (Node.str node)))
                 { e6 with subClassOf := e6.subClassOf ++ subs,
                           equivalentClass := e6.equivalentClass ++ eqs })))) := rfl

theorem dictGet_dictSet_self (se : List (String × Entry)) (k : String) (e : Entry) :
    dictGet (dictSet se k e) k = some e := by
  induction se with
  | nil => simp [dictSet, dictGet]
  | cons a rest ih =>
    obtain ⟨ka, ea⟩ := a
    by_cases hk : ka = k
    · subst hk
      simp [dictSet, dictGet]
    · simp [dictSet, dictGet, hk, ih]

/-- C4 (amended): when the gatherer processes a term in the Class role,
each `subClassOf` triple's object and each `equivalentClass` triple's
object is summarized and appended to the record's respective list, in
triple order and with no deduplication at all — structurally identical
summaries from distinct triples are each appended rather than
collapsed. -/
theorem c4_class_append (g : Graph) (fuel : Nat) (se se' : List (String × Entry)) (node : Node)
    (h : processTerm g fuel se ("Class", node) = some se') :
    ∃ e' subs eqs,
      dictGet se' (Node.str node) = some e' ∧
      (Graph.objects g node rdfsSubClassOf).mapM (fun o => summarize_expression g fuel o)
        = some subs ∧
      (Graph.objects g node owlEquivalentClass).mapM (fun o => summarize_expression g fuel o)
        = some eqs ∧
      e'.subClassOf =
        ((dictGet se (Node.str node)).getD (defaultEntry (Node.str node))).subClassOf ++ subs ∧
      e'.equivalentClass =
        ((dictGet se (Node.str node)).getD (defaultEntry (Node.str node))).equivalentClass
          ++ eqs := by
  rw [processTerm_class_eq] at h
  cases hsub : (Graph.objects g node rdfsSubClassOf).mapM (fun o => summarize_expression g fuel o) with
  | none =>
    rw [hsub] at h
    exact absurd h (by simp)
  | some subs =>
    rw [hsub] at h
    cases heqv : (Graph.objects g node owlEquivalentClass).mapM
        (fun o => summarize_expression g fuel o) with
    | none =>
      rw [heqv] at h
      exact absurd h (by simp)
    | some eqs =>
      rw [heqv] at h
      simp only [Option.some_bind, Option.some.injEq] at h
      subst h
      refine ⟨_, subs, eqs, dictGet_dictSet_self se (Node.str node) _, rfl, rfl, ?_, ?_⟩
      · simp [accumulateCommon_subClassOf]
      · simp [accumulateCommon_equivalentClass]

/-- Counterexample for C4: the two structurally identical anonymous
superclass restrictions of `gDupSub` are both appended — the record's
`subClassOf` list has length two, exact duplicate summaries do not
collapse to a single entry. -/
theorem c4_counterexample :
    gather_terms gDupSub 2 = some [c4entry] ∧
    c4entry.subClassOf = [dupRestr, dupRestr] ∧
    c4entry.subClassOf.length = 2 :=
  ⟨rfl, rfl, rfl⟩

/-- Witness for C4 (amended): processing the class of `gDupSub` appends
one summary per triple, in order. -/
theorem c4_witness :
    ∃ e', dictGet c4se "http://ex/A" = some e' ∧ e'.subClassOf = [dupRestr, dupRestr] := by
  obtain ⟨e', subs, eqs, h1, h2, h3, h4, h5⟩ :=
    c4_class_append gDupSub 2 [] c4se aEx (by rfl)
  refine ⟨e', h1, ?_⟩
  have hsubs : subs = [dupRestr, dupRestr] := by
    have : (Graph.objects gDupSub aEx rdfsSubClassOf).mapM
        (fun o => summarize_expression gDupSub 2 o) = some [dupRestr, dupRestr] := by rfl
    rw [this] at h2
    exact (Option.some.injEq _ _).mp h2.symm
  rw [h4, hsubs]
  rfl

/-! Claim C5: termination of the Expression Summarizer on acyclic
input. -/

theorem walk_isSome_of_measure (g : Graph) (m : Node → Nat)
    (hrest : ∀ a b, Graph.value g a rdfRest = some b → m b < m a) :
    ∀ fuel l, m l < fuel → (rdf_list_walk g fuel l).isSome := by
  intro fuel
  induction fuel with
  | zero => intro l h; omega
  | succ f ih =>
    intro l _
    rw [rdf_list_walk]
    by_cases hnil : l = rdfNil
    · simp [hnil]
    · rw [if_neg hnil]
      cases hf : Graph.value g l rdfFirst with
      | none => simp
      | some x =>
        cases hr : Graph.value g l rdfRest with
        | none => simp
        | some rest =>
          have hlt := hrest l rest hr
          have hres := ih rest (by omega)
          cases hw : rdf_list_walk g f rest with
          | none => rw [hw] at hres; simp at hres
          | some items => simp [hw]

theorem walk_elems_lt (g : Graph) (m : Node → Nat)
    (hrest : ∀ a b, Graph.value g a rdfRest = some b → m b < m a)
    (hfirst : ∀ a b, Graph.value g a rdfFirst = some b → m b < m a) :
    ∀ fuel l r, rdf_list_walk g fuel l = some r → ∀ x ∈ r, m x < m l := by
  intro fuel
  induction fuel with
  | zero => intro l r h; simp [rdf_list_walk] at h
  | succ f ih =>
    intro l r h x hx
    rw [rdf_list_walk] at h
    by_cases hnil : l = rdfNil
    · rw [if_pos hnil] at h
      obtain rfl : ([] : List Node) = r := Option.some.inj h
      simp at hx
    · rw [if_neg hnil] at h
      cases hf : Graph.value g l rdfFirst with
      | none =>
        simp only [hf] at h
        obtain rfl : ([] : List Node) = r := Option.some.inj h
        simp at hx
      | some y =>
        simp only [hf] at h
        cases hr : Graph.value g l rdfRest with
        | none =>
          simp only [hr] at h
          obtain rfl : [y] = r := Option.some.inj h
          have hxy : x = y := by simpa using hx
          subst hxy
          exact hfirst l x hf
        | some rest =>
          simp only [hr] at h
          cases hw : rdf_list_walk g f rest with
          | none => rw [hw] at h; simp at h
          | some items =>
            rw [hw] at h
            simp only [Option.map_some', Option.some.injEq] at h
            subst h
            rcases List.mem_cons.mp hx with hxy | hxi
            · subst hxy
              exact hfirst l x hf
            · exact Nat.lt_trans (ih rest items hw x hxi) (hrest l rest hr)

theorem mapM_isSome {l : List Node} {f : Node → Option Expr}
    (h : ∀ x ∈ l, (f x).isSome) : (l.mapM f).isSome := by
  induction l with
  | nil => rfl
  | cons a rest ih =>
    rw [List.mapM_cons]
    have ha := h a (List.mem_cons_self _ _)
    cases hfa : f a with
    | none => rw [hfa] at ha; simp at ha
    | some x =>
      have hr := ih (fun y hy => h y (List.mem_cons_of_mem _ hy))
      cases hrm : rest.mapM f with
      | none => rw [hrm] at hr; simp at hr
      | some xs => simp [hfa, hrm]

theorem buildFillersAux_isSome (g : Graph) (summ : Node → Option Expr) (n : Node)
    (h : ∀ p k val, (p, k) ∈ fillerPairs → Graph.value g n p = some val →
      (∀ s, val ≠ Node.lit s) → (summ val).isSome) :
    ∀ ps, (∀ pk ∈ ps, pk ∈ fillerPairs) →
      ∀ acc, (buildFillersAux g summ n ps acc).isSome := by
  intro ps
  induction ps with
  | nil => intro _ acc; simp [buildFillersAux]
  | cons pk rest ih =>
    intro hsub acc
    have hrest : ∀ pk' ∈ rest, pk' ∈ fillerPairs :=
      fun pk' hpk' => hsub pk' (List.mem_cons_of_mem _ hpk')
    simp only [buildFillersAux]
    cases hv : Graph.value g n pk.1 with
    | none => simpa using ih hrest acc
    | some val =>
      cases val with
      | lit s => simpa using ih hrest (acc ++ [(pk.2, Expr.rawE s)])
      | uri u =>
        have hpk : (pk.1, pk.2) ∈ fillerPairs := by
          have := hsub pk (List.mem_cons_self _ _)
          simpa using this
        have hsm := h pk.1 pk.2 (Node.uri u) hpk hv (fun s hc => Node.noConfusion hc)
        cases hs : summ (Node.uri u) with
        | none => rw [hs] at hsm; simp at hsm
        | some ev =>
          simp only [hs]
          simpa using ih hrest (acc ++ [(pk.2, ev)])
      | bnode u =>
        have hpk : (pk.1, pk.2) ∈ fillerPairs := by
          have := hsub pk (List.mem_cons_self _ _)
          simpa using this
        have hsm := h pk.1 pk.2 (Node.bnode u) hpk hv (fun s hc => Node.noConfusion hc)
        cases hs : summ (Node.bnode u) with
        | none => rw [hs] at hsm; simp at hsm
        | some ev =>
          simp only [hs]
          simpa using ih hrest (acc ++ [(pk.2, ev)])

/-- C5: for every graph admitting a measure that strictly decreases
along every summarizer recursion edge — node-valued restriction
fillers, boolean-combinator and enumeration links, complement operands,
and the `rdf:first`/`rdf:rest` links of list chains (exactly the
acyclicity of those links) — the summarizer completes on every node
once the fuel exceeds the node's measure; and a node taking the `BNode`
fallback is never recursed into: one unit of fuel suffices and the
result is exactly its immediate predicate/object pairs, independent of
any further fuel. -/
theorem c5_summarizer_terminates :
    (∀ (g : Graph) (m : Node → Nat), (∀ a b, Step g a b → m b < m a) →
      ∀ fuel n, m n < fuel → (summarize_expression g fuel n).isSome) ∧
    (∀ g b fuel, isRestrictionShaped g (Node.bnode b) = false →
      Graph.value g (Node.bnode b) owlIntersectionOf = none →
      Graph.value g (Node.bnode b) owlUnionOf = none →
      Graph.value g (Node.bnode b) owlComplementOf = none →
      Graph.value g (Node.bnode b) owlOneOf = none →
      summarize_expression g (fuel + 1) (Node.bnode b)
        = some (Expr.bnodeE (bnodeProps g (Node.bnode b)))) := by
  constructor
  · intro g m hm fuel
    induction fuel with
    | zero => intro n h; omega
    | succ f ih =>
      intro n hf
      cases n with
      | uri s => simp [summarize_succ, summarizeStep]
      | lit s => simp [summarize_succ, summarizeStep]
      | bnode b =>
        rw [summarize_succ]
        simp only [summarizeStep]
        by_cases hr : isRestrictionShaped g (Node.bnode b) = true
        · rw [if_pos hr]
          have hbf : (buildFillers g (fun v => summarize_expression g f v)
              (Node.bnode b)).isSome := by
            apply buildFillersAux_isSome
            · intro p k val hpk hv hnl
              apply ih
              have := hm _ _ (Step.filler hpk hv hnl)
              omega
            · intro pk hpk
              exact hpk
          cases hb : buildFillers g (fun v => summarize_expression g f v) (Node.bnode b) with
          | none => rw [hb] at hbf; simp at hbf
          | some fs => simp [hb]
        · rw [if_neg hr]
          cases hi : Graph.value g (Node.bnode b) owlIntersectionOf with
          | some inter =>
            have hmi := hm _ _ (Step.inter hi)
            have hwalk := walk_isSome_of_measure g m
              (fun a c hc => hm _ _ (Step.restS hc)) f inter (by omega)
            cases hw : rdf_list_walk g f inter with
            | none => rw [hw] at hwalk; simp at hwalk
            | some items =>
              have hmap : (items.mapM (fun v => summarize_expression g f v)).isSome := by
                apply mapM_isSome
                intro x hx
                apply ih
                have := walk_elems_lt g m (fun a c hc => hm _ _ (Step.restS hc))
                  (fun a c hc => hm _ _ (Step.firstS hc)) f inter items hw x hx
                omega
              cases hmm : items.mapM (fun v => summarize_expression g f v) with
              | none => rw [hmm] at hmap; simp at hmap
              | some ops =>
                have hmm2 : List.mapM.loop (fun v => summarize_expression g f v) items []
                    = some ops := hmm
                simp [rdf_list_to_py, hw, hmm2]
          | none =>
            cases hu : Graph.value g (Node.bnode b) owlUnionOf with
            | some un =>
              have hmu := hm _ _ (Step.unionS hu)
              have hwalk := walk_isSome_of_measure g m
                (fun a c hc => hm _ _ (Step.restS hc)) f un (by omega)
              cases hw : rdf_list_walk g f un with
              | none => rw [hw] at hwalk; simp at hwalk
              | some items =>
                have hmap : (items.mapM (fun v => summarize_expression g f v)).isSome := by
                  apply mapM_isSome
                  intro x hx
                  apply ih
                  have := walk_elems_lt g m (fun a c hc => hm _ _ (Step.restS hc))
                    (fun a c hc => hm _ _ (Step.firstS hc)) f un items hw x hx
                  omega
                cases hmm : items.mapM (fun v => summarize_expression g f v) with
                | none => rw [hmm] at hmap; simp at hmap
                | some ops =>
                  have hmm2 : List.mapM.loop (fun v => summarize_expression g f v) items []
                      = some ops := hmm
                  simp [rdf_list_to_py, hw, hmm2]
            | none =>
              cases hc : Graph.value g (Node.bnode b) owlComplementOf with
              | some comp =>
                have hmc := hm _ _ (Step.compl hc)
                have hcs := ih comp (by omega)
                cases hs : summarize_expression g f comp with
                | none => rw [hs] at hcs; simp at hcs
                | some op => simp [hs]
              | none =>
                cases ho : Graph.value g (Node.bnode b) owlOneOf with
                | some oo =>
                  have hmo := hm _ _ (Step.oneOfS ho)
                  have hwalk := walk_isSome_of_measure g m
                    (fun a c hc => hm _ _ (Step.restS hc)) f oo (by omega)
                  cases hw : rdf_list_walk g f oo with
                  | none => rw [hw] at hwalk; simp at hwalk
                  | some items =>
                    have hmap : (items.mapM (fun v => summarize_expression g f v)).isSome := by
                      apply mapM_isSome
                      intro x hx
                      apply ih
                      have := walk_elems_lt g m (fun a c hc => hm _ _ (Step.restS hc))
                        (fun a c hc => hm _ _ (Step.firstS hc)) f oo items hw x hx
                      omega
                    cases hmm : items.mapM (fun v => summarize_expression g f v) with
                    | none => rw [hmm] at hmap; simp at hmap
                    | some ops =>
                      have hmm2 : List.mapM.loop (fun v => summarize_expression g f v) items []
                          = some ops := hmm
                      simp [rdf_list_to_py, hw, hmm2]
                | none => simp
  · intro g b fuel hr hi hu hc ho
    rw [summarize_succ]
    simp only [summarizeStep, hr, hi, hu, hc, ho]
    simp

/-- Witness for C5: on the empty graph (trivially acyclic, measured by
the zero measure) the summarizer completes with one unit of fuel, and a
bare anonymous node takes the `BNode` fallback with its immediate
pairs. -/
theorem c5_witness :
    (summarize_expression ([] : Graph) 1 (Node.bnode "x")).isSome ∧
    summarize_expression ([] : Graph) 1 (Node.bnode "x")
      = some (Expr.bnodeE (bnodeProps [] (Node.bnode "x"))) := by
  have hm : ∀ a b, Step ([] : Graph) a b → (fun _ : Node => 0) b < (fun _ : Node => 0) a := by
    intro a b hstep
    exfalso
    cases hstep with
    | filler hpk hv hnl => simp [Graph.value, Graph.objects] at hv
    | inter hv => simp [Graph.value, Graph.objects] at hv
    | unionS hv => simp [Graph.value, Graph.objects] at hv
    | compl hv => simp [Graph.value, Graph.objects] at hv
    | oneOfS hv => simp [Graph.value, Graph.objects] at hv
    | restS hv => simp [Graph.value, Graph.objects] at hv
    | firstS hv => simp [Graph.value, Graph.objects] at hv
  exact ⟨c5_summarizer_terminates.1 [] (fun _ => 0) hm 1 (Node.bnode "x") Nat.zero_lt_one,
    c5_summarizer_terminates.2 [] "x" 0 (by rfl) (by rfl) (by rfl) (by rfl) (by rfl)⟩

/-! Claim C7: one Term Record per discovered IRI. -/

theorem accumulateCommon_iri (g : Graph) (cat : String) (node : Node) (e0 : Entry) :
    (accumulateCommon g cat node e0).iri = e0.iri := by
  unfold accumulateCommon
  split <;> split <;> rfl

theorem accumulateCommon_types (g : Graph) (cat : String) (node : Node) (e0 : Entry) :
    (accumulateCommon g cat node e0).types =
      if cat ∈ e0.types then e0.types else e0.types ++ [cat] := by
  unfold accumulateCommon
  split <;> split <;> simp_all

theorem mem_dictSet_elim {se : List (String × Entry)} {k : String} {e : Entry}
    {kv : String × Entry} (h : kv ∈ dictSet se k e) : kv = (k, e) ∨ kv ∈ se := by
  induction se with
  | nil => simpa [dictSet] using h
  | cons a rest ih =>
    obtain ⟨ka, ea⟩ := a
    by_cases hk : ka = k
    · subst hk
      simp only [dictSet, if_pos rfl] at h
      rcases List.mem_cons.mp h with h | h
      · exact Or.inl (by simpa using h)
      · exact Or.inr (List.mem_cons_of_mem _ h)
    · simp only [dictSet, if_neg hk] at h
      rcases List.mem_cons.mp h with h | h
      · exact Or.inr (by simp [h])
      · rcases ih h with h | h
        · exact Or.inl h
        · exact Or.inr (List.mem_cons_of_mem _ h)

theorem dictGet_dictSet_ne (se : List (String × Entry)) {k k' : String} (e : Entry)
    (hne : k' ≠ k) : dictGet (dictSet se k e) k' = dictGet se k' := by
  induction se with
  | nil => simp [dictSet, dictGet, Ne.symm hne]
  | cons a rest ih =>
    obtain ⟨ka, ea⟩ := a
    by_cases hk : ka = k
    · subst hk
      simp only [dictSet, if_pos rfl]
      simp [dictGet, Ne.symm hne]
    · simp only [dictSet, if_neg hk]
      by_cases hk' : ka = k'
      · simp [dictGet, hk']
      · simp [dictGet, hk', ih]

theorem dictGet_mem_of_some {se : List (String × Entry)} {k : String} {e : Entry}
    (h : dictGet se k = some e) : (k, e) ∈ se := by
  induction se with
  | nil => simp [dictGet] at h
  | cons a rest ih =>
    obtain ⟨ka, ea⟩ := a
    by_cases hk : ka = k
    · subst hk
      simp [dictGet] at h
      subst h
      exact List.mem_cons_self _ _
    · simp only [dictGet, if_neg hk] at h
      exact List.mem_cons_of_mem _ (ih h)

theorem keys_dictSet (se : List (String × Entry)) (k : String) (e : Entry) :
    (dictSet se k e).map Prod.fst =
      if k ∈ se.map Prod.fst then se.map Prod.fst else se.map Prod.fst ++ [k] := by
  induction se with
  | nil => simp [dictSet]
  | cons a rest ih =>
    obtain ⟨ka, ea⟩ := a
    by_cases hk : ka = k
    · subst hk
      simp [dictSet]
    · simp only [dictSet, if_neg hk, List.map_cons, ih]
      by_cases hmem : k ∈ rest.map Prod.fst
      · simp [hmem, Ne.symm hk]
      · simp [hmem, Ne.symm hk]

theorem dictSet_keys_nodup {se : List (String × Entry)} (k : String) (e : Entry)
    (h : (se.map Prod.fst).Nodup) : ((dictSet se k e).map Prod.fst).Nodup := by
  rw [keys_dictSet]
  by_cases hmem : k ∈ se.map Prod.fst
  · simpa [hmem] using h
  · simp only [hmem, if_false]
    exact List.Nodup.append h (List.nodup_singleton k)
      (List.disjoint_singleton.mpr hmem)

theorem hasNode_iff {ts : List (String × Node)} {n : Node} :
    hasNode ts n = true ↔ ∃ c, (c, n) ∈ ts := by
  simp only [hasNode, List.any_eq_true, decide_eq_true_eq]
  constructor
  · rintro ⟨⟨c, n'⟩, hmem, h⟩
    simp only at h
    subst h
    exact ⟨c, hmem⟩
  · rintro ⟨c, hmem⟩
    exact ⟨(c, n), hmem, rfl⟩

theorem accumNew_mono {static : Node → Bool} {cat : String} {init : List (String × Node)}
    {l : List Node} {x : String × Node} (h : x ∈ init) :
    x ∈ accumNew static cat init l := by
  induction l generalizing init with
  | nil => simpa [accumNew] using h
  | cons a rest ih =>
    simp only [accumNew, List.foldl_cons]
    split
    · exact ih (List.mem_append.mpr (Or.inl h))
    · exact ih h

theorem mem_accumNew_elim {static : Node → Bool} {cat : String}
    {init : List (String × Node)} {l : List Node} {x : String × Node}
    (h : x ∈ accumNew static cat init l) :
    x ∈ init ∨ (x.1 = cat ∧ x.2 ∈ l ∧ static x.2 = true) := by
  induction l generalizing init with
  | nil => exact Or.inl (by simpa [accumNew] using h)
  | cons a rest ih =>
    simp only [accumNew, List.foldl_cons] at h
    split at h
    next hcond =>
      rcases ih h with hin | ⟨h1, h2, h3⟩
      · rcases List.mem_append.mp hin with hin | hin
        · exact Or.inl hin
        · have hx : x = (cat, a) := by simpa using hin
          subst hx
          refine Or.inr ⟨rfl, List.mem_cons_self _ _, ?_⟩
          have := hcond
          simp only [Bool.and_eq_true] at this
          exact this.1
      · exact Or.inr ⟨h1, List.mem_cons_of_mem _ h2, h3⟩
    next hcond =>
      rcases ih h with hin | ⟨h1, h2, h3⟩
      · exact Or.inl hin
      · exact Or.inr ⟨h1, List.mem_cons_of_mem _ h2, h3⟩

theorem accumNew_complete {static : Node → Bool} {cat : String} {subj : Node}
    (hstatic : static subj = true) :
    ∀ (l : List Node), subj ∈ l → ∀ init, ∃ c, (c, subj) ∈ accumNew static cat init l := by
  intro l
  induction l with
  | nil => intro h; simp at h
  | cons a rest ih =>
    intro hsubj init
    rcases List.mem_cons.mp hsubj with heq | hmem
    · subst heq
      by_cases hn : hasNode init subj = true
      · obtain ⟨c, hc⟩ := hasNode_iff.mp hn
        refine ⟨c, ?_⟩
        simp only [accumNew, List.foldl_cons]
        split
        · exact accumNew_mono (List.mem_append.mpr (Or.inl hc))
        · exact accumNew_mono hc
      · have hn' : hasNode init subj = false := by
          revert hn
          cases hasNode init subj <;> simp
        refine ⟨cat, ?_⟩
        simp only [accumNew, List.foldl_cons]
        split
        next hcond =>
          exact accumNew_mono (List.mem_append.mpr (Or.inr (by simp)))
        next hcond =>
          exfalso
          exact hcond (by simp [hstatic, hn'])
    · simp only [accumNew, List.foldl_cons]
      split
      · exact ih hmem (init ++ [(cat, a)])
      · exact ih hmem init

theorem isUri_exists {n : Node} (h : Node.isUri n = true) : ∃ s, n = Node.uri s := by
  cases n with
  | uri s => exact ⟨s, rfl⟩
  | bnode s => simp [Node.isUri] at h
  | lit s => simp [Node.isUri] at h

theorem mem_typedTerms {g : Graph} {cat : String} {cls : Node} {x : String × Node} :
    x ∈ typedTerms g cat cls ↔
      x.1 = cat ∧ Node.isUri x.2 = true ∧ (x.2, rdfType, cls) ∈ g := by
  simp only [typedTerms, List.mem_map, List.mem_filter]
  constructor
  · rintro ⟨s, ⟨hs, hu⟩, hx⟩
    subst hx
    exact ⟨rfl, hu, mem_subjects.mp (mem_dedupFirst.mp hs)⟩
  · rintro ⟨h1, h2, h3⟩
    obtain ⟨x1, x2⟩ := x
    simp only at h1 h2 h3
    subst h1
    exact ⟨x2, ⟨mem_dedupFirst.mpr (mem_subjects.mpr h3), h2⟩, rfl⟩

theorem discover_sound {g : Graph} {c : String} {n : Node}
    (h : (c, n) ∈ discoverTerms g) : ∃ iri, n = Node.uri iri ∧ Discovered g iri := by
  simp only [discoverTerms] at h
  rcases mem_accumNew_elim h with h4 | ⟨_, hmem, hstatic⟩
  · rcases List.mem_append.mp h4 with h3 | hap
    · rcases List.mem_append.mp h3 with h2 | hdp
      · rcases List.mem_append.mp h2 with h1b | hop
        · rcases mem_accumNew_elim h1b with h1 | ⟨_, _, hstatic⟩
          · obtain ⟨_, hu, ht⟩ := mem_typedTerms.mp h1
            obtain ⟨iri, rfl⟩ := isUri_exists hu
            exact ⟨iri, rfl, Or.inl ht⟩
          · simp only [Bool.and_eq_true] at hstatic
            obtain ⟨hu, hsp⟩ := hstatic
            obtain ⟨iri, rfl⟩ := isUri_exists hu
            rcases Bool.or_eq_true _ _ |>.mp hsp with hs | hs
            · obtain ⟨o, ho⟩ := hasSP_iff.mp hs
              exact ⟨iri, rfl, Or.inr (Or.inr (Or.inr (Or.inr (Or.inl ⟨o, ho⟩))))⟩
            · obtain ⟨o, ho⟩ := hasSP_iff.mp hs
              exact ⟨iri, rfl, Or.inr (Or.inr (Or.inr (Or.inr (Or.inr (Or.inl ⟨o, ho⟩)))))⟩
        · obtain ⟨_, hu, ht⟩ := mem_typedTerms.mp hop
          obtain ⟨iri, rfl⟩ := isUri_exists hu
          exact ⟨iri, rfl, Or.inr (Or.inl ht)⟩
      · obtain ⟨_, hu, ht⟩ := mem_typedTerms.mp hdp
        obtain ⟨iri, rfl⟩ := isUri_exists hu
        exact ⟨iri, rfl, Or.inr (Or.inr (Or.inl ht))⟩
    · obtain ⟨_, hu, ht⟩ := mem_typedTerms.mp hap
      obtain ⟨iri, rfl⟩ := isUri_exists hu
      exact ⟨iri, rfl, Or.inr (Or.inr (Or.inr (Or.inl ht)))⟩
  · simp only [Bool.and_eq_true] at hstatic
    obtain ⟨hu, _⟩ := hstatic
    obtain ⟨iri, rfl⟩ := isUri_exists hu
    obtain ⟨o, ho⟩ := mem_subjectsP.mp (mem_dedupFirst.mp hmem)
    exact ⟨iri, rfl, Or.inr (Or.inr (Or.inr (Or.inr (Or.inr (Or.inr ⟨o, ho⟩)))))⟩

theorem discover_complete {g : Graph} {iri : String} (h : Discovered g iri) :
    ∃ c, (c, Node.uri iri) ∈ discoverTerms g := by
  simp only [discoverTerms]
  rcases h with h | h | h | h | ⟨o, h⟩ | ⟨o, h⟩ | ⟨t, h⟩
  · refine ⟨"Class", accumNew_mono ?_⟩
    refine List.mem_append.mpr (Or.inl (List.mem_append.mpr (Or.inl
      (List.mem_append.mpr (Or.inl (accumNew_mono ?_))))))
    exact mem_typedTerms.mpr ⟨rfl, rfl, h⟩
  · refine ⟨"ObjectProperty", accumNew_mono ?_⟩
    refine List.mem_append.mpr (Or.inl (List.mem_append.mpr (Or.inl
      (List.mem_append.mpr (Or.inr ?_)))))
    exact mem_typedTerms.mpr ⟨rfl, rfl, h⟩
  · refine ⟨"DatatypeProperty", accumNew_mono ?_⟩
    refine List.mem_append.mpr (Or.inl (List.mem_append.mpr (Or.inr ?_)))
    exact mem_typedTerms.mpr ⟨rfl, rfl, h⟩
  · refine ⟨"AnnotationProperty", accumNew_mono ?_⟩
    refine List.mem_append.mpr (Or.inr ?_)
    exact mem_typedTerms.mpr ⟨rfl, rfl, h⟩
  · have hstatic : (Node.isUri (Node.uri iri) &&
        (Graph.hasSP g (Node.uri iri) rdfsSubClassOf ||
         Graph.hasSP g (Node.uri iri) owlEquivalentClass)) = true := by
      simp [Node.isUri, hasSP_iff.mpr ⟨o, h⟩]
    obtain ⟨c, hc⟩ := @accumNew_complete
      (fun subj => Node.isUri subj &&
        (Graph.hasSP g subj rdfsSubClassOf || Graph.hasSP g subj owlEquivalentClass))
      "Class" (Node.uri iri) hstatic (dedupFirst (Graph.subjectsAll g))
      (mem_dedupFirst.mpr (mem_subjectsAll.mpr ⟨rdfsSubClassOf, o, h⟩)) _
    refine ⟨c, accumNew_mono ?_⟩
    exact List.mem_append.mpr (Or.inl (List.mem_append.mpr (Or.inl
      (List.mem_append.mpr (Or.inl hc)))))
  · have hstatic : (Node.isUri (Node.uri iri) &&
        (Graph.hasSP g (Node.uri iri) rdfsSubClassOf ||
         Graph.hasSP g (Node.uri iri) owlEquivalentClass)) = true := by
      simp [Node.isUri, hasSP_iff.mpr ⟨o, h⟩]
    obtain ⟨c, hc⟩ := @accumNew_complete
      (fun subj => Node.isUri subj &&
        (Graph.hasSP g subj rdfsSubClassOf || Graph.hasSP g subj owlEquivalentClass))
      "Class" (Node.uri iri) hstatic (dedupFirst (Graph.subjectsAll g))
      (mem_dedupFirst.mpr (mem_subjectsAll.mpr ⟨owlEquivalentClass, o, h⟩)) _
    refine ⟨c, accumNew_mono ?_⟩
    exact List.mem_append.mpr (Or.inl (List.mem_append.mpr (Or.inl
      (List.mem_append.mpr (Or.inl hc)))))
  · have hstatic : (Node.isUri (Node.uri iri) &&
        !(Graph.objects g (Node.uri iri) rdfType).isEmpty) = true := by
      have hne := objects_isEmpty_iff.mpr ⟨t, h⟩
      simp [Node.isUri, hne]
    exact @accumNew_complete
      (fun subj => Node.isUri subj && !(Graph.objects g subj rdfType).isEmpty)
      "Individual" (Node.uri iri) hstatic (dedupFirst (Graph.subjectsP g rdfType))
      (mem_dedupFirst.mpr (mem_subjectsP.mpr ⟨t, h⟩)) _

theorem processTerm_shape (g : Graph) (fuel : Nat) (se : List (String × Entry))
    (cn : String × Node) (se' : List (String × Entry))
    (h : processTerm g fuel se cn = some se') :
    ∃ e8, se' = dictSet se (Node.str cn.2) e8 ∧
      e8.iri = ((dictGet se (Node.str cn.2)).getD (defaultEntry (Node.str cn.2))).iri ∧
      e8.types =
        (if cn.1 ∈ ((dictGet se (Node.str cn.2)).getD (defaultEntry (Node.str cn.2))).types
         then ((dictGet se (Node.str cn.2)).getD (defaultEntry (Node.str cn.2))).types
         else ((dictGet se (Node.str cn.2)).getD (defaultEntry (Node.str cn.2))).types
           ++ [cn.1]) := by
  obtain ⟨cat, node⟩ := cn
  simp only [processTerm] at h
  by_cases hcl : cat = "Class"
  · subst hcl
    rw [if_pos rfl] at h
    cases hsub : (Graph.objects g node rdfsSubClassOf).mapM
        (fun o => summarize_expression g fuel o) with
    | none =>
      have hsub2 : List.mapM.loop (fun o => summarize_expression g fuel o)
          (Graph.objects g node rdfsSubClassOf) [] = none := hsub
      simp [hsub2] at h
    | some subs =>
      have hsub2 : List.mapM.loop (fun o => summarize_expression g fuel o)
          (Graph.objects g node rdfsSubClassOf) [] = some subs := hsub
      cases heqv : (Graph.objects g node owlEquivalentClass).mapM
          (fun o => summarize_expression g fuel o) with
      | none =>
        have heqv2 : List.mapM.loop (fun o => summarize_expression g fuel o)
            (Graph.objects g node owlEquivalentClass) [] = none := heqv
        simp [hsub2, heqv2] at h
      | some eqs =>
        rw [hsub, heqv] at h
        simp only [Option.pure_def, Option.bind_eq_bind, Option.some_bind,
          Option.some.injEq] at h
        rw [if_neg (by decide)] at h
        subst h
        refine ⟨_, rfl, ?_, ?_⟩
        · exact accumulateCommon_iri g "Class" node _
        · exact accumulateCommon_types g "Class" node _
  · rw [if_neg hcl] at h
    simp only [Option.pure_def, Option.bind_eq_bind, Option.some_bind] at h
    by_cases hin : cat = "Individual"
    · subst hin
      rw [if_pos rfl] at h
      simp only [Option.some.injEq] at h
      subst h
      refine ⟨_, rfl, ?_, ?_⟩
      · exact accumulateCommon_iri g "Individual" node _
      · exact accumulateCommon_types g "Individual" node _
    · rw [if_neg hin] at h
      simp only [Option.some.injEq] at h
      subst h
      refine ⟨_, rfl, ?_, ?_⟩
      · exact accumulateCommon_iri g cat node _
      · exact accumulateCommon_types g cat node _

theorem processTerm_inv {g : Graph} {fuel : Nat} {se se' : List (String × Entry)}
    {cn : String × Node} {processed : List (String × Node)}
    (hinv : GatherInv processed se) (h : processTerm g fuel se cn = some se') :
    GatherInv (processed ++ [cn]) se' := by
  obtain ⟨hkeys, hrec, hproc, hfrom⟩ := hinv
  obtain ⟨e8, hse', hiri, htypes⟩ := processTerm_shape g fuel se cn se' h
  subst hse'
  have he0iri : ((dictGet se (Node.str cn.2)).getD
      (defaultEntry (Node.str cn.2))).iri = Node.str cn.2 := by
    cases hget : dictGet se (Node.str cn.2) with
    | none => simp [hget, defaultEntry]
    | some e0' =>
      have := (hrec (Node.str cn.2, e0') (dictGet_mem_of_some hget)).1
      exact this
  have he0nodup : ((dictGet se (Node.str cn.2)).getD
      (defaultEntry (Node.str cn.2))).types.Nodup := by
    cases hget : dictGet se (Node.str cn.2) with
    | none => simp [hget, defaultEntry]
    | some e0' =>
      have := (hrec (Node.str cn.2, e0') (dictGet_mem_of_some hget)).2
      simpa [hget] using this
  refine ⟨dictSet_keys_nodup _ e8 hkeys, ?_, ?_, ?_⟩
  · intro kv hkv
    rcases mem_dictSet_elim hkv with heq | hkv'
    · subst heq
      refine ⟨by simpa [hiri] using he0iri, ?_⟩
      rw [htypes]
      by_cases hc : cn.1 ∈ ((dictGet se (Node.str cn.2)).getD
          (defaultEntry (Node.str cn.2))).types
      · simpa [hc] using he0nodup
      · simp only [hc, if_false]
        exact List.Nodup.append he0nodup (List.nodup_singleton _)
          (List.disjoint_singleton.mpr hc)
    · exact hrec kv hkv'
  · intro cn' hcn'
    rcases List.mem_append.mp hcn' with hold | hnew
    · obtain ⟨e', hget', htype'⟩ := hproc cn' hold
      by_cases hks : Node.str cn'.2 = Node.str cn.2
      · have he' : (dictGet se (Node.str cn.2)).getD
            (defaultEntry (Node.str cn.2)) = e' := by
          rw [← hks, hget']
          rfl
        refine ⟨e8, by rw [hks]; exact dictGet_dictSet_self se _ e8, ?_⟩
        rw [htypes, he']
        by_cases hc : cn.1 ∈ e'.types
        · simpa [hc] using htype'
        · simp only [hc, if_false]
          exact List.mem_append.mpr (Or.inl htype')
      · refine ⟨e', ?_, htype'⟩
        rw [dictGet_dictSet_ne se e8 hks]
        exact hget'
    · have hcc : cn' = cn := by simpa using hnew
      subst hcc
      refine ⟨e8, dictGet_dictSet_self se _ e8, ?_⟩
      rw [htypes]
      by_cases hc : cn'.1 ∈ ((dictGet se (Node.str cn'.2)).getD
          (defaultEntry (Node.str cn'.2))).types
      · rw [if_pos hc]
        exact hc
      · rw [if_neg hc]
        exact List.mem_append.mpr (Or.inr (by simp))
  · intro kv hkv
    rcases mem_dictSet_elim hkv with heq | hkv'
    · subst heq
      exact ⟨cn, List.mem_append.mpr (Or.inr (by simp)), rfl⟩
    · obtain ⟨cn', hcn', hstr⟩ := hfrom kv hkv'
      exact ⟨cn', List.mem_append.mpr (Or.inl hcn'), hstr⟩

theorem gather_fold_inv (g : Graph) (fuel : Nat) :
    ∀ (terms processed : List (String × Node)) (se se' : List (String × Entry)),
      GatherInv processed se →
      terms.foldlM (fun s cn => processTerm g fuel s cn) se = some se' →
      GatherInv (processed ++ terms) se' := by
  intro terms
  induction terms with
  | nil =>
    intro processed se se' hinv h
    simp only [List.foldlM_nil] at h
    obtain rfl : se = se' := Option.some.inj h
    simpa using hinv
  | cons cn rest ih =>
    intro processed se se' hinv h
    simp only [List.foldlM_cons] at h
    cases hstep : processTerm g fuel se cn with
    | none => rw [hstep] at h; exact Option.noConfusion h
    | some s1 =>
      rw [hstep] at h
      have h2 : rest.foldlM (fun s cn => processTerm g fuel s cn) s1 = some se' := h
      have := ih (processed ++ [cn]) s1 se' (processTerm_inv hinv hstep) h2
      simpa [List.append_assoc] using this

theorem filter_iri_length :
    ∀ (es : List Entry), (es.map (fun e => e.iri)).Nodup →
      ∀ iri, (es.filter (fun e => decide (e.iri = iri))).length ≤ 1 := by
  intro es
  induction es with
  | nil => intro _ _; simp
  | cons e rest ih =>
    intro hnodup iri
    simp only [List.map_cons, List.nodup_cons] at hnodup
    obtain ⟨hnot, hrest⟩ := hnodup
    by_cases hc : e.iri = iri
    · have hempty : rest.filter (fun e' => decide (e'.iri = iri)) = [] := by
        rw [List.filter_eq_nil_iff]
        intro x hx
        simp only [decide_eq_true_eq]
        intro hxi
        exact hnot (List.mem_map.mpr ⟨x, hx, hxi.trans hc.symm⟩)
      simp [List.filter_cons, hc, hempty]
    · simp only [List.filter_cons, decide_eq_true_eq, hc, if_false]
      exact ih hrest iri

/-- C7: the Term Gatherer produces exactly one Term Record per distinct
named-resource IRI meeting any discovery criterion — an IRI has a
record exactly when it is discovered, no IRI has more than one record —
and all matching role names accumulate into that single record's
`types` list, which stays duplicate-free. -/
theorem c7_one_record_per_iri (g : Graph) (fuel : Nat) (es : List Entry)
    (h : gather_terms g fuel = some es) :
    (∀ iri, Discovered g iri ↔ ∃ e ∈ es, e.iri = iri) ∧
    (∀ iri, (es.filter (fun e => decide (e.iri = iri))).length ≤ 1) ∧
    (∀ e ∈ es, e.types.Nodup) ∧
    (∀ cat n, (cat, n) ∈ discoverTerms g →
      ∃ e ∈ es, e.iri = Node.str n ∧ cat ∈ e.types) := by
  simp only [gather_terms] at h
  cases hfold : (discoverTerms g).foldlM (fun s cn => processTerm g fuel s cn) [] with
  | none => rw [hfold] at h; exact absurd h (by simp)
  | some se =>
    rw [hfold] at h
    simp only [Option.pure_def, Option.bind_eq_bind, Option.some_bind,
      Option.some.injEq] at h
    subst h
    have hinv : GatherInv (discoverTerms g) se := by
      have hbase : GatherInv [] [] := ⟨by simp, by simp, by simp, by simp⟩
      have := gather_fold_inv g fuel (discoverTerms g) [] [] se hbase hfold
      simpa using this
    obtain ⟨hkeys, hrec, hproc, hfrom⟩ := hinv
    have hmapiri : (se.map (fun kv => kv.2)).map (fun e => e.iri) = se.map Prod.fst := by
      rw [List.map_map]
      apply List.map_congr_left
      intro kv hkv
      exact (hrec kv hkv).1
    refine ⟨?_, ?_, ?_, ?_⟩
    · intro iri
      constructor
      · intro hd
        obtain ⟨c, hcn⟩ := discover_complete hd
        obtain ⟨e, hget, _⟩ := hproc (c, Node.uri iri) hcn
        refine ⟨e, List.mem_map.mpr ⟨(Node.str (Node.uri iri), e),
          dictGet_mem_of_some hget, rfl⟩, ?_⟩
        exact (hrec _ (dictGet_mem_of_some hget)).1
      · rintro ⟨e, hes, hiri⟩
        obtain ⟨kv, hkv, hkv2⟩ := List.mem_map.mp hes
        obtain ⟨cn, hcn, hstr⟩ := hfrom kv hkv
        obtain ⟨c2, n2⟩ := cn
        obtain ⟨iri', heq, hd⟩ := discover_sound hcn
        have hii : iri = iri' := by
          rw [← hiri, ← hkv2, (hrec kv hkv).1, ← hstr, heq]
          rfl
        rw [hii]
        exact hd
    · intro iri
      exact filter_iri_length _ (by rw [hmapiri]; exact hkeys) iri
    · intro e hes
      obtain ⟨kv, hkv, hkv2⟩ := List.mem_map.mp hes
      rw [← hkv2]
      exact (hrec kv hkv).2
    · intro cat n hmem
      obtain ⟨e, hget, htype⟩ := hproc (cat, n) hmem
      refine ⟨e, List.mem_map.mpr ⟨(Node.str n, e),
        dictGet_mem_of_some hget, rfl⟩, ?_, htype⟩
      exact (hrec _ (dictGet_mem_of_some hget)).1

/-- Witness for C7: on the labeled-class graph the discovered IRI has a
record, and no IRI has more than one. -/
theorem c7_witness :
    (∃ e ∈ [c3entry], e.iri = "http://ex/A") ∧
    ([c3entry].filter (fun e => decide (e.iri = "http://ex/A"))).length ≤ 1 := by
  have h := c7_one_record_per_iri gLabel 1 [c3entry] (by rfl)
  refine ⟨(h.1 "http://ex/A").mp ?_, h.2.1 "http://ex/A"⟩
  exact Or.inl (by simp [gLabel, aEx])
